import Mathlib

/-!
# hytale-downloader: a shallow embedding of the authentication session and
# of the verified download pipeline

The Go sources embedded here are `internal/oauth/oauth.go`,
`internal/ioutil/download.go` and the function `download` of `main.go`.

Conventions of the embedding:

* a Go pointer that may be `nil` is an `Option`; dereferencing `nil` is the
  explicit outcome `panicked`;
* a Go `(value, error)` result keeps both components;
* calls into libraries the repository does not contain (the OAuth2 base token
  source, `encoding/json`, `crypto/sha256`, `net/http`, `filepath.Abs`) are
  inputs of the embedded function: either the value the call hands back or
  the function itself is a parameter;
* the file system is a state: a map from paths to files, with faults that
  make an operation on a path fail;
* `buildinfo.Branch` is a link-time string of a package that is not part of
  the sources; it is the parameter `Branch` everywhere;
* `int64` arithmetic wraps (`ioutil.int64`); `float64` arithmetic is IEEE 754
  binary64 with rounding to nearest, ties to even (`float64.round`), computed
  on integers;
* what the program prints is kept as the data a line is rendered from, not
  as text;
* the mutex of `watchTokenSource` serialises the calls, so a run of the token
  source is a list of calls executed one after the other.
-/

set_option linter.dupNamespace false

/-- Go `error` values.  `lib` is an error handed back by a library call,
`EOF` is the sentinel `io.EOF`, `errorf` is `fmt.Errorf(format, args...)`
without a wrapped error and `wrapf` is `fmt.Errorf` whose format ends in
`%w` applied to `err`. -/
inductive GoError where
  | lib (msg : String)
  | EOF
  | errorf (format : String) (args : List String)
  | wrapf (format : String) (args : List String) (err : GoError)
  deriving DecidableEq, Repr

namespace time

/-- The part of `time.Time` the credential file keeps: the instant, in
nanoseconds since the Unix epoch, and the name of the location it is shown
in.  Two values denote the same instant when `unixNano` agrees. -/
structure Time where
  unixNano : Int
  location : String
  deriving DecidableEq, Repr

end time

namespace oauth2

/-- The exported fields of `golang.org/x/oauth2.Token`. -/
structure Token where
  AccessToken : String
  TokenType : String
  RefreshToken : String
  Expiry : time.Time
  deriving DecidableEq, Repr

/-- What one call of `TokenSource.Token()` hands back: the Go pair
`(*oauth2.Token, error)`. -/
structure TokenResult where
  tok : Option Token
  err : Option GoError
  deriving DecidableEq, Repr

end oauth2

namespace oauth

/-- The struct `Token` of oauth.go:15-19: the embedded `*oauth2.Token` and
the branch. -/
structure Token where
  Token : Option oauth2.Token
  Branch : String
  deriving DecidableEq, Repr

/-- The struct `watchTokenSource` of oauth.go:92-98.  The field `base` is
the library token source: the result of each `w.base.Token()` is an input of
the call.  The field `mu` is the lock that makes calls sequential.  The
callback `onRefresh` is a `func(*Token)` run for its effect: it is a
transformer of the state `σ` it acts on, or `none` for a nil function. -/
structure watchTokenSource (σ : Type) where
  path : String
  lastTok : Option oauth2.Token
  onRefresh : Option (Token → σ → σ)

/-- The constructor `WatchTokenSource` of oauth.go:101-108. -/
def WatchTokenSource {σ : Type} (path : String) (tok : Token)
    (onRefresh : Option (Token → σ → σ)) : watchTokenSource σ :=
  { path := path, lastTok := tok.Token, onRefresh := onRefresh }

/-- The state after one call of `watchTokenSource.Token`: the two returned
values, whether the call dereferenced a nil pointer, the receiver and the
state the callback acts on. -/
structure TokenCall (σ : Type) where
  tok : Option oauth2.Token
  err : Option GoError
  panicked : Bool
  w : watchTokenSource σ
  world : σ

/-- The method `func (w *watchTokenSource) Token()` of oauth.go:110-132, given the
result `base` of `w.base.Token()`. -/
def watchTokenSource.Token {σ : Type} (Branch : String) (w : watchTokenSource σ)
    (base : oauth2.TokenResult) (world : σ) : TokenCall σ :=
  match base.err with
  | some err => { tok := none, err := some err, panicked := false, w := w, world := world }
  | none =>
    match base.tok, w.lastTok with
    | some tok, some lastTok =>
      if tok.AccessToken ≠ lastTok.AccessToken then
        let w1 : watchTokenSource σ := { w with lastTok := some tok }
        let newTok : oauth.Token := { Token := some tok, Branch := Branch }
        match w.onRefresh with
        | some f =>
          { tok := some tok, err := none, panicked := false, w := w1, world := f newTok world }
        | none => { tok := some tok, err := none, panicked := false, w := w1, world := world }
      else { tok := some tok, err := none, panicked := false, w := w, world := world }
    | _, _ => { tok := none, err := none, panicked := true, w := w, world := world }

/-- A run of the token source: the calls are made one after the other, each
with the next result of the base source; the list holds the state after
every call.  A call that panics ends the run. -/
def watchTokenSource.run {σ : Type} (Branch : String) :
    watchTokenSource σ → σ → List oauth2.TokenResult → List (TokenCall σ)
  | _, _, [] => []
  | w, world, base :: rest =>
    let c := watchTokenSource.Token Branch w base world
    if c.panicked then [c] else c :: watchTokenSource.run Branch c.w c.world rest

/-- A successful result of the base source. -/
def okResult (tok : oauth2.Token) : oauth2.TokenResult := { tok := some tok, err := none }

/-- The token seen just before call `i` of a run: the initial token for the
first call, the token the base source returned to the call before
otherwise. -/
def seenBefore (tok0 : oauth2.Token) (toks : List oauth2.Token) (i : Nat) : oauth2.Token :=
  match i with
  | 0 => tok0
  | j + 1 => toks.getD j tok0

/-- A callback that appends the token it is given to a log: the persistence
callback of `main.go` with the file replaced by the list of tokens saved. -/
def recordRefresh (t : Token) (log : List Token) : List Token := log ++ [t]

end oauth

namespace strings

/-- The library function `strings.ToLower`.  A string of ASCII bytes only
takes the fast path of the library, which adds `'a' - 'A'` to the bytes `'A'..'Z'`; any other string
is mapped rune by rune with `unicode.ToLower`, whose table is the parameter
`unicodeToLower`. -/
def ToLower (unicodeToLower : Char → Char) (s : String) : String :=
  if s.data.all (fun c => decide (c.toNat < 128)) then String.mk (s.data.map Char.toLower)
  else String.mk (s.data.map unicodeToLower)

/-- The library function `strings.HasSuffix`. -/
def HasSuffix (s suffix : String) : Bool :=
  decide (s.data.drop (s.data.length - suffix.data.length) = suffix.data)

/-- Two strings are equal compared case-insensitively when their lowercase
forms are equal. -/
def EqualIgnoringCase (unicodeToLower : Char → Char) (a b : String) : Prop :=
  ToLower unicodeToLower a = ToLower unicodeToLower b

end strings

namespace hex

/-- The digit table of `encoding/hex`: `"0123456789abcdef"`. -/
def hextable : List Char :=
  ['0', '1', '2', '3', '4', '5', '6', '7', '8', '9', 'a', 'b', 'c', 'd', 'e', 'f']

/-- The characters of `hex.EncodeToString(src)`: for every byte `v` the
digits `hextable[v >> 4]` and `hextable[v & 0x0f]`. -/
def encode : List UInt8 → List Char
  | [] => []
  | v :: rest =>
    hextable.getD (v.toNat / 16) '0' :: hextable.getD (v.toNat % 16) '0' :: encode rest

/-- The library function `hex.EncodeToString`. -/
def EncodeToString (src : List UInt8) : String := String.mk (encode src)

end hex

namespace os

/-- A regular file: its bytes and its permission bits. -/
structure File where
  data : List UInt8
  perm : Nat
  deriving DecidableEq, Repr

/-- The file system the program runs on.  `files` maps a path to the file
there; `denied` arms a fault on a path, with which every attempt to open it
fails; `unreadable` arms a fault with which reading the contents of the
opened file fails; `undeletable` arms a fault with which removing the file
fails (a fault is the message of the library error it raises); `limit`, when
set, is the size past which a write fails for lack of space. -/
structure FS where
  files : String → Option File
  denied : String → Option String
  unreadable : String → Option String
  undeletable : String → Option String
  limit : Option Nat

/-- The file system with no file and no fault. -/
def FS.empty : FS :=
  { files := fun _ => none, denied := fun _ => none, unreadable := fun _ => none,
    undeletable := fun _ => none, limit := none }

/-- The file system with the file at `path` replaced. -/
def FS.set (fs : FS) (path : String) (f : File) : FS :=
  { fs with files := fun p => if p = path then some f else fs.files p }

/-- An open file handle for reading: the bytes a reader gets and the fault
it meets while reading, if one is armed. -/
structure Handle where
  data : List UInt8
  readErr : Option GoError
  deriving DecidableEq, Repr

/-- The library function `os.Open`. -/
def Open (fs : FS) (path : String) : Except GoError Handle :=
  match fs.denied path with
  | some msg => .error (GoError.lib msg)
  | none =>
    match fs.files path with
    | none => .error (GoError.lib ("open " ++ path ++ ": no such file or directory"))
    | some f => .ok { data := f.data, readErr := (fs.unreadable path).map GoError.lib }

/-- Reading an open file to its end, as `io.Copy(dst, file)` and
`os.ReadFile` do: all the bytes, or the read fault. -/
def Handle.readAll (h : Handle) : Except GoError (List UInt8) :=
  match h.readErr with
  | some err => .error err
  | none => .ok h.data

/-- The library function `os.ReadFile`. -/
def ReadFile (fs : FS) (path : String) : Except GoError (List UInt8) :=
  match Open fs path with
  | .error err => .error err
  | .ok h => h.readAll

/-- The library function `os.Create`: the file is created with mode 0666 or
truncated, keeping its mode. -/
def Create (fs : FS) (path : String) : Except GoError FS :=
  match fs.denied path with
  | some msg => .error (GoError.lib msg)
  | none =>
    match fs.files path with
    | none => .ok (fs.set path { data := [], perm := 0o666 })
    | some f => .ok (fs.set path { f with data := [] })

/-- The method `(*os.File).Write` on a file that holds `file`: the contents
after the call and the error.  Past the limit of the file system the bytes that fit
are written and the call fails. -/
def Write (limit : Option Nat) (file p : List UInt8) : List UInt8 × Option GoError :=
  match limit with
  | none => (file ++ p, none)
  | some l =>
    if file.length + p.length ≤ l then (file ++ p, none)
    else (file ++ p.take (l - file.length), some (GoError.lib "write: no space left on device"))

/-- The library function `os.WriteFile(path, data, perm)`: open with create
and truncate, one write, close. -/
def WriteFile (fs : FS) (path : String) (data : List UInt8) (perm : Nat) : FS × Option GoError :=
  match Create fs path with
  | .error err => (fs, some err)
  | .ok _ =>
    let mode := match fs.files path with
      | none => perm
      | some f => f.perm
    let w := Write fs.limit [] data
    (fs.set path { data := w.1, perm := mode }, w.2)

/-- The library function `os.Remove`: the file system after the call and the
error. -/
def Remove (fs : FS) (path : String) : FS × Option GoError :=
  match fs.files path with
  | none => (fs, some (GoError.lib ("remove " ++ path ++ ": no such file or directory")))
  | some _ =>
    match fs.undeletable path with
    | some msg => (fs, some (GoError.lib msg))
    | none => ({ fs with files := fun p => if p = path then none else fs.files p }, none)

end os

namespace json

/-- The two calls of `encoding/json` that oauth.go makes on `oauth.Token`:
`json.MarshalIndent(tok, "", "  ")`, from the pointer `tok` to the bytes or
the message of the library's error, and `json.Unmarshal(data, &tok)` into a
zero `Token`, from the bytes to the token decoded or the message of the
library's error. -/
structure TokenCodec where
  MarshalIndent : Option oauth.Token → Except String (List UInt8)
  Unmarshal : List UInt8 → Except String oauth.Token

end json

namespace oauth

/-- The error `LoadCredentials` builds at oauth.go:76 for a file whose
branch is `fileBranch`. -/
def branchMismatch (fileBranch Branch : String) : GoError :=
  GoError.errorf
    "credentials were created for %q environment, but current environment is %q"
    [fileBranch, Branch]

/-- The function `LoadCredentials` of oauth.go:64-80: the Go pair `(*Token, error)`. -/
def LoadCredentials (codec : json.TokenCodec) (Branch : String) (fs : os.FS) (path : String) :
    Option Token × Option GoError :=
  match os.ReadFile fs path with
  | .error err => (none, some err)
  | .ok data =>
    match codec.Unmarshal data with
    | .error msg => (none, some (GoError.lib msg))
    | .ok tok =>
      if tok.Branch ≠ Branch then (none, some (branchMismatch tok.Branch Branch))
      else (some tok, none)

/-- The function `SaveCredentials` of oauth.go:83-89: the file system after the call and
the error returned. -/
def SaveCredentials (codec : json.TokenCodec) (fs : os.FS) (path : String)
    (tok : Option Token) : os.FS × Option GoError :=
  match codec.MarshalIndent tok with
  | .error msg => (fs, some (GoError.lib msg))
  | .ok data => os.WriteFile fs path data 0o600

/-- Two session tokens are equivalent: the same branch and, in the OAuth2
token, the same access token, refresh token, token type and expiry
instant. -/
def Token.Equivalent (a b : oauth.Token) : Prop :=
  a.Branch = b.Branch ∧
  match a.Token, b.Token with
  | some x, some y =>
    x.AccessToken = y.AccessToken ∧ x.RefreshToken = y.RefreshToken ∧
    x.TokenType = y.TokenType ∧ x.Expiry.unixNano = y.Expiry.unixNano
  | none, none => True
  | _, _ => False

end oauth

namespace float64

/-- The number of binary digits of `n`, counted with `fuel` halvings;
`bitLen n n` is the bit length of `n`. -/
def bitLen : Nat → Nat → Nat
  | 0, _ => 0
  | fuel + 1, n => if n = 0 then 0 else bitLen fuel (n / 2) + 1

/-- A finite IEEE 754 binary64 number: `m * 2 ^ e`, negated when `neg`.
Every operation below returns `m = 0` or `2 ^ 52 ≤ m ≤ 2 ^ 53`. -/
structure F64 where
  neg : Bool
  m : Nat
  e : Int
  deriving DecidableEq, Repr

/-- The integer nearest to `N / D`, a tie going to the even one. -/
def roundHalfEven (N D : Nat) : Nat :=
  let q := N / D
  let r := N % D
  if 2 * r < D then q else if D < 2 * r then q + 1 else if q % 2 = 0 then q else q + 1

/-- The binary64 number nearest to `n / d` (ties to even): `n / d` is scaled
by the power of two `2 ^ s` that brings it into `[2 ^ 52, 2 ^ 53)` and rounded
to an integer there.  Go's `float64` arithmetic is IEEE 754 with this
rounding; exponents stay far inside the binary64 range for operands that come
from `int64` values, so overflow and subnormal numbers are not represented. -/
def round (neg : Bool) (n d : Nat) : F64 :=
  if n = 0 then { neg := neg, m := 0, e := 0 } else
  let s : Int := 53 + (bitLen d d : Int) - (bitLen n n : Int)
  let N : Nat := n * 2 ^ s.toNat
  let D : Nat := d * 2 ^ (-s).toNat
  if 2 ^ 53 * D ≤ N then { neg := neg, m := roundHalfEven N (2 * D), e := 1 - s }
  else { neg := neg, m := roundHalfEven N D, e := -s }

/-- The conversion `float64(x)` of an integer. -/
def ofInt (x : Int) : F64 := round (decide (x < 0)) x.natAbs 1

/-- The quotient `a / b` of binary64 numbers, `b` not zero. -/
def div (a b : F64) : F64 :=
  let r := round (xor a.neg b.neg) a.m b.m
  { r with e := r.e + a.e - b.e }

/-- The product `a * b` of binary64 numbers. -/
def mul (a b : F64) : F64 :=
  let r := round (xor a.neg b.neg) (a.m * b.m) 1
  { r with e := r.e + a.e + b.e }

/-- The conversion `int(a)`: the fraction is discarded (truncation towards
zero). -/
def toInt (a : F64) : Int :=
  let mag : Nat := a.m * 2 ^ a.e.toNat / 2 ^ (-a.e).toNat
  if a.neg then -(mag : Int) else (mag : Int)

/-- The rational number a binary64 number stands for. -/
def F64.val (a : F64) : ℚ := (if a.neg then -1 else 1) * (a.m : ℚ) * (2 : ℚ) ^ a.e

/-- The integer `m` is nearest to `y`, a tie going to the even one. -/
def NearestEven (y : ℚ) (m : Nat) : Prop :=
  (m : ℚ) - 1 / 2 ≤ y ∧ y ≤ (m : ℚ) + 1 / 2 ∧
    ((y = (m : ℚ) - 1 / 2 ∨ y = (m : ℚ) + 1 / 2) → Even m)

/-- The number `m * 2 ^ e` is the binary64 rounding of the positive rational
`x`: scaled by `2 ^ e`, `x` lies in `[2 ^ 52, 2 ^ 53)` and `m` is the integer
nearest to it. -/
def IsRound (x : ℚ) (m : Nat) (e : Int) : Prop :=
  (2 : ℚ) ^ 52 ≤ x / (2 : ℚ) ^ e ∧ x / (2 : ℚ) ^ e < (2 : ℚ) ^ 53 ∧ NearestEven (x / (2 : ℚ) ^ e) m

/-- The binary64 number `a` is the rounding of the positive rational `x`. -/
def Rounds (x : ℚ) (a : F64) : Prop := a.neg = false ∧ IsRound x a.m a.e

end float64

namespace http

/-- One call of `resp.Body.Read(buf)`: the bytes `buf[:n]` it delivered and
its error.  The reader contract bounds `n` by the length of `buf`. -/
structure Read where
  data : List UInt8
  err : Option GoError
  deriving DecidableEq, Repr

/-- The fields of `http.Response` that `Download` reads.  `Body` lists the
results of the successive `Read` calls; a body read past the end of the list
answers `0, io.EOF`. -/
structure Response where
  StatusCode : Int
  Status : String
  ContentLength : Int
  Body : List Read
  deriving DecidableEq, Repr

/-- An `*http.Client` as far as `client.Get(url)` goes. -/
abbrev Client := String → Except GoError Response

end http

namespace ioutil

/-- A value wrapped to the range of `int64`. -/
def int64 (x : Int) : Int := (x + 2 ^ 63) % 2 ^ 64 - 2 ^ 63

/-- The length of `buf` in `Download`: `32*1024`. -/
def bufSize : Nat := 32 * 1024

/-- The lines `Download` prints.  The text of a line is a function of the
numbers given here (`buildProgressBar`, `formatBytes` and `Printf` render
them); `newline` is the final `fmt.Println()`. -/
inductive Event where
  | progress (percent downloaded contentLength : Int)
  | bytes (downloaded : Int)
  | newline
  deriving DecidableEq, Repr

/-- The expression `int((float64(downloaded) / float64(contentLength)) * 100)`
of download.go:52. -/
def percentOf (downloaded contentLength : Int) : Int :=
  float64.toInt (float64.mul
    (float64.div (float64.ofInt downloaded) (float64.ofInt contentLength))
    (float64.ofInt 100))

/-- The variables of the loop of `Download` together with the contents of
the destination file and the lines printed so far, oldest first. -/
structure LoopState where
  downloaded : Int
  lastPercent : Int
  lastPrintedBytes : Int
  file : List UInt8
  out : List Event
  deriving DecidableEq, Repr

/-- The state in which the loop is entered: the zero values of
download.go:37-39, an empty file, nothing printed. -/
def LoopState.init : LoopState :=
  { downloaded := 0, lastPercent := 0, lastPrintedBytes := 0, file := [], out := [] }

/-- The progress report of download.go:50-64, run after `downloaded` was
advanced. -/
def report (contentLength : Int) (st : LoopState) : LoopState :=
  if contentLength > 0 then
    let percent := percentOf st.downloaded contentLength
    if percent ≠ st.lastPercent then
      { st with lastPercent := percent,
                out := st.out ++ [Event.progress percent st.downloaded contentLength] }
    else st
  else
    if int64 (st.downloaded - st.lastPrintedBytes) ≥ 1024 * 1024 then
      { st with lastPrintedBytes := st.downloaded,
                out := st.out ++ [Event.bytes st.downloaded] }
    else st

/-- The branch `if n > 0` of download.go:43-65 for the bytes `p = buf[:n]`:
the state after it, or the state at the failed write and the error
returned. -/
def chunk (contentLength : Int) (limit : Option Nat) (st : LoopState) (p : List UInt8) :
    Except (LoopState × GoError) LoopState :=
  let w := os.Write limit st.file p
  match w.2 with
  | some writeErr =>
    .error ({ st with file := w.1 }, GoError.wrapf "error writing to file: %w" [] writeErr)
  | none =>
    .ok (report contentLength
      { st with file := w.1, downloaded := int64 (st.downloaded + (p.length : Int)) })

/-- The loop of download.go:41-72 over the reads of the body: the state when
the loop is left and the error returned from inside it, `none` when it is left
by `break` at `io.EOF`. -/
def loop (contentLength : Int) (limit : Option Nat) :
    List http.Read → LoopState → LoopState × Option GoError
  | [], st => (st, none)
  | r :: rest, st =>
    match (if r.data.length > 0 then chunk contentLength limit st r.data else .ok st) with
    | .error (st1, err) => (st1, some err)
    | .ok st1 =>
      match r.err with
      | none => loop contentLength limit rest st1
      | some readErr =>
        if readErr = GoError.EOF then (st1, none)
        else (st1, some (GoError.wrapf "error reading response: %w" [] readErr))

/-- What a call of `Download` leaves: the error returned, the file system
and the lines printed. -/
structure DownloadResult where
  err : Option GoError
  fs : os.FS
  out : List Event

/-- The function `Download` of download.go:14-76.  `DefaultClient` is
`http.DefaultClient`. -/
def Download (DefaultClient : http.Client) (fs : os.FS) (client : Option http.Client)
    (url path : String) : DownloadResult :=
  let client := client.getD DefaultClient
  match client url with
  | .error err => { err := some (GoError.wrapf "error downloading: %w" [] err), fs := fs, out := [] }
  | .ok resp =>
    if resp.StatusCode ≠ 200 then
      { err := some (GoError.errorf "error downloading: HTTP status %s" [resp.Status]),
        fs := fs, out := [] }
    else
      match os.Create fs path with
      | .error err =>
        { err := some (GoError.wrapf "could not create file: %w" [] err), fs := fs, out := [] }
      | .ok fs1 =>
        let perm := match fs1.files path with
          | none => 0o666
          | some f => f.perm
        let r := loop resp.ContentLength fs.limit resp.Body LoopState.init
        let fs2 := fs1.set path { data := r.1.file, perm := perm }
        match r.2 with
        | some err => { err := some err, fs := fs2, out := r.1.out }
        | none => { err := none, fs := fs2, out := r.1.out ++ [Event.newline] }

/-- The percentages printed, oldest first. -/
def percents (out : List Event) : List Int :=
  out.filterMap (fun ev => match ev with
    | Event.progress percent _ _ => some percent
    | _ => none)

/-- The byte counts printed while the total size is unknown, oldest first. -/
def byteCounts (out : List Event) : List Int :=
  out.filterMap (fun ev => match ev with
    | Event.bytes downloaded => some downloaded
    | _ => none)

/-- A body that delivers the given chunks, each with a nil error, and then
answers `0, io.EOF`. -/
def bodyOf (chunks : List (List UInt8)) : List http.Read :=
  chunks.map (fun c => { data := c, err := none }) ++ [{ data := [], err := some GoError.EOF }]

/-- The number of bytes a list of reads delivers. -/
def total (rs : List http.Read) : Int := ((rs.map (fun r => r.data.length)).sum : Nat)

/-- What holds of the loop state whenever the total size `T` is known and
the byte count has not left the range of `int64`. -/
def KnownInv (T : Int) (st : LoopState) : Prop :=
  0 ≤ st.downloaded ∧
  List.Pairwise (fun a b => a ≤ b) (percents st.out) ∧
  (∀ q ∈ percents st.out, q ≤ st.lastPercent) ∧
  st.lastPercent = (percents st.out).getLastD 0 ∧
  (0 < st.downloaded → st.lastPercent = percentOf st.downloaded T) ∧
  (st.downloaded = 0 → st.lastPercent = 0)

/-- Two byte counts printed one after the other, of a download of unknown
size: at least 1 MiB apart and less than 1 MiB plus one buffer. -/
def Gap (a b : Int) : Prop := 1048576 ≤ b - a ∧ b - a < 1048576 + 32768

/-- What holds of the loop state whenever the total size is unknown and the
byte count has not left the range of `int64`. -/
def UnknownInv (st : LoopState) : Prop :=
  0 ≤ st.downloaded ∧
  st.lastPrintedBytes = (byteCounts st.out).getLastD 0 ∧
  0 ≤ st.downloaded - st.lastPrintedBytes ∧
  st.downloaded - st.lastPrintedBytes < 1048576 ∧
  List.Chain Gap 0 (byteCounts st.out)

/-- The sizes of the reads, in order. -/
def sizes (rs : List http.Read) : List Nat := rs.map (fun r => r.data.length)

/-- The bytes the reads deliver, in order. -/
def payload (rs : List http.Read) : List UInt8 := (rs.map (fun r => r.data)).flatten

/-- The rule of the specification for a download of unknown size, written from
its words and not from the code: with `received` bytes transferred and
`lastPrinted` the last count printed, a chunk of `n` bytes is followed by an
update, which prints the new byte count, exactly when the bytes transferred
since the last update are at least 1 MiB.  The result lists the counts
printed for the given chunk sizes, oldest first. -/
def expectedCounts (received lastPrinted : Int) : List Nat → List Int
  | [] => []
  | n :: rest =>
    if received + (n : Int) - lastPrinted ≥ 1048576 then
      (received + (n : Int)) :: expectedCounts (received + (n : Int)) (received + (n : Int)) rest
    else expectedCounts (received + (n : Int)) lastPrinted rest

/-- A body of 33 reads, each a full buffer of 32 KiB. -/
def fullBuffers : List http.Read :=
  List.replicate 33 { data := List.replicate 32768 0, err := none }

/-- A client whose server answers every request with status 200, a declared
size of three bytes and a body that delivers them as two chunks. -/
def threeByteServer : http.Client := fun _ =>
  .ok { StatusCode := 200, Status := "200 OK", ContentLength := 3, Body := bodyOf [[1, 2], [3]] }

/-- The function `ValidateSHA256` of download.go:100-118.  `sha256` is the digest
function of `crypto/sha256`, from the bytes written to the hash to the 32
bytes of `hash.Sum(nil)`. -/
def ValidateSHA256 (sha256 : List UInt8 → List UInt8) (unicodeToLower : Char → Char)
    (fs : os.FS) (path expected : String) : Option GoError :=
  match os.Open fs path with
  | .error err => some (GoError.wrapf "could not open file for validation: %w" [] err)
  | .ok file =>
    match file.readAll with
    | .error err => some (GoError.wrapf "could not compute hash: %w" [] err)
    | .ok contents =>
      let computed := hex.EncodeToString (sha256 contents)
      if computed ≠ strings.ToLower unicodeToLower expected then
        some (GoError.errorf "checksum mismatch: expected %s, got %s" [expected, computed])
      else none

end ioutil

namespace version

/-- The struct `Manifest` of version.go:13-16. -/
structure Manifest where
  Version : String
  SHA256 : String
  deriving DecidableEq, Repr

/-- The function `getBaseURL` of version.go:24-29. -/
def getBaseURL (Branch : String) : String :=
  if Branch = "release" then "https://downloader.hytale.com"
  else "https://downloader-dev.hytale.com"

/-- The function `getAccountDataURL` of version.go:32-37. -/
def getAccountDataURL (Branch : String) : String :=
  if Branch = "release" then "https://account-data.hytale.com"
  else "https://account-data-dev.hytale.com"

/-- What version.go asks of `encoding/json` and `io` on a response body:
`manifest` is `json.NewDecoder(resp.Body).Decode(&manifest)`, `url` is the
same on the struct with the field `URL`, both from the reads of the body to
the value decoded or the message of the library's error; `readAll` is
`string(body)` after `io.ReadAll(resp.Body)`. -/
structure Decoders where
  manifest : List http.Read → Except String Manifest
  url : List http.Read → Except String String
  readAll : List http.Read → String

/-- The function `Get` of version.go:40-61. -/
def Get (Branch : String) (dec : Decoders) (DefaultClient : http.Client)
    (client : Option http.Client) (patchline : String) : Except GoError Manifest :=
  let client := client.getD DefaultClient
  let url := getBaseURL Branch ++ "/version/" ++ patchline ++ ".json"
  match client url with
  | .error err => .error err
  | .ok resp =>
    if resp.StatusCode ≠ 200 then .error (GoError.errorf "HTTP status: %s" [resp.Status])
    else
      match dec.manifest resp.Body with
      | .error msg => .error (GoError.lib msg)
      | .ok manifest => .ok manifest

/-- The function `GetSignedURL` of version.go:64-89. -/
def GetSignedURL (Branch : String) (dec : Decoders) (DefaultClient : http.Client)
    (client : Option http.Client) (patchline : String) : Except GoError String :=
  let client := client.getD DefaultClient
  let url := getAccountDataURL Branch ++ "/game-assets/" ++ patchline
  match client url with
  | .error err => .error err
  | .ok resp =>
    if resp.StatusCode ≠ 200 then
      .error (GoError.errorf "HTTP status: %s\nResponse: %s" [resp.Status, dec.readAll resp.Body])
    else
      match dec.url resp.Body with
      | .error msg => .error (GoError.lib msg)
      | .ok url => .ok url

end version

namespace main

/-- The flags `download` reads: `-download-path` and `-patchline`. -/
structure Flags where
  downloadPath : String
  patchlineName : String

/-- The libraries and the build constant under `download`.  `Abs` is
`filepath.Abs`, to the absolute path or the message of the library's error.
A client is indexed by the number of the request made through it, so that
the network may answer the same URL differently at different times. -/
structure Env where
  Branch : String
  sha256 : List UInt8 → List UInt8
  unicodeToLower : Char → Char
  decoders : version.Decoders
  Abs : String → Except String String
  DefaultClient : Nat → http.Client

/-- What `download` does to the world outside its variables, in order: the
lines it prints, the lines `ioutil.Download` prints, the call
`os.Remove(path)`, and `log.Fatalf(format, err)`, which ends the process. -/
inductive Effect where
  | printf (format : String) (args : List String)
  | println (line : String)
  | progress (ev : ioutil.Event)
  | remove (path : String)
  | fatalf (format : String) (err : GoError)
  deriving DecidableEq, Repr

/-- The end of a run of `download`: the file system, the effects in order,
and the exit status `1` when `log.Fatalf` ended the process, `none` when
`download` returned. -/
structure Outcome where
  fs : os.FS
  trace : List Effect
  exit : Option Nat

/-- An environment for the examples: the digest of a file is the file
itself, the manifest names version 1.2.3 and the digest `sha`, every request
is answered by `ioutil.threeByteServer`. -/
def sampleEnv (sha : String) : Env :=
  { Branch := "release",
    sha256 := fun c => c,
    unicodeToLower := Char.toLower,
    decoders :=
      { manifest := fun _ => .ok { Version := "1.2.3", SHA256 := sha },
        url := fun _ => .ok "https://cdn.example/file",
        readAll := fun _ => "" },
    Abs := fun p => .ok ("/home/user/" ++ p),
    DefaultClient := fun _ => ioutil.threeByteServer }

/-- The destination path of main.go:165-174, before it is made absolute. -/
def destination (unicodeToLower : Char → Char) (flags : Flags) (manifest : version.Manifest) :
    String :=
  let path :=
    if flags.downloadPath = "" then
      "hytale-" ++ flags.patchlineName ++ "-" ++ manifest.Version ++ ".zip"
    else flags.downloadPath
  if !strings.HasSuffix (strings.ToLower unicodeToLower path) ".zip" then path ++ ".zip"
  else path

/-- The function `download` of main.go:152-198.  The three requests go through the
client in this order: the manifest, the signed URL, the artifact. -/
def download (env : Env) (flags : Flags) (client : Option (Nat → http.Client)) (fs : os.FS) :
    Outcome :=
  match version.Get env.Branch env.decoders (env.DefaultClient 0)
      (client.map (fun c => c 0)) flags.patchlineName with
  | .error err =>
    { fs := fs, trace := [Effect.fatalf "error getting version: %v" err], exit := some 1 }
  | .ok manifest =>
    match version.GetSignedURL env.Branch env.decoders (env.DefaultClient 1)
        (client.map (fun c => c 1)) flags.patchlineName with
    | .error err =>
      { fs := fs, trace := [Effect.fatalf "error getting download URL: %v" err], exit := some 1 }
    | .ok signedURL =>
      match env.Abs (destination env.unicodeToLower flags manifest) with
      | .error msg =>
        { fs := fs, trace := [Effect.fatalf "error resolving path: %v" (GoError.lib msg)],
          exit := some 1 }
      | .ok absPath =>
        let d := ioutil.Download (env.DefaultClient 2) fs (client.map (fun c => c 2))
          signedURL absPath
        let printed :=
          Effect.printf "downloading latest (%q patchline) to %q\n" [flags.patchlineName, absPath]
            :: d.out.map Effect.progress
        match d.err with
        | some err =>
          { fs := d.fs, trace := printed ++ [Effect.fatalf "error downloading: %v" err],
            exit := some 1 }
        | none =>
          match ioutil.ValidateSHA256 env.sha256 env.unicodeToLower d.fs absPath
              manifest.SHA256 with
          | some err =>
            { fs := (os.Remove d.fs absPath).1,
              trace := printed ++ [Effect.println "validating checksum...",
                Effect.remove absPath, Effect.fatalf "%v" err],
              exit := some 1 }
          | none =>
            { fs := d.fs,
              trace := printed ++ [Effect.println "validating checksum...",
                Effect.printf "successfully downloaded %q patchline (version %s)\n"
                  [flags.patchlineName, manifest.Version]],
              exit := none }

end main

/-! ## Theorems -/

namespace float64

theorem bitLen_spec (fuel : Nat) : ∀ n, 0 < n → n ≤ fuel →
    2 ^ (bitLen fuel n - 1) ≤ n ∧ n < 2 ^ bitLen fuel n ∧ 0 < bitLen fuel n := by
  induction fuel with
  | zero => intro n h1 h2; omega
  | succ f ih =>
    intro n hn hle
    have hne : n ≠ 0 := by omega
    simp only [bitLen, hne, if_false]
    by_cases h2 : n / 2 = 0
    · have : n = 1 := by omega
      subst this
      have : bitLen f (1 / 2) = 0 := by
        cases f <;> simp [bitLen]
      simp [this]
    · have hpos : 0 < n / 2 := Nat.pos_of_ne_zero h2
      obtain ⟨h3, h4, h5⟩ := ih (n / 2) hpos (by omega)
      refine ⟨?_, ?_, by omega⟩
      · simp only [Nat.add_sub_cancel]
        have : 2 ^ bitLen f (n / 2) = 2 * 2 ^ (bitLen f (n / 2) - 1) := by
          rw [← pow_succ']; congr 1; omega
        omega
      · rw [pow_succ]; omega

theorem roundHalfEven_spec (N D : Nat) (hD : 0 < D) :
    NearestEven ((N : ℚ) / D) (roundHalfEven N D) := by
  have hDq : (0 : ℚ) < D := by exact_mod_cast hD
  have hN : (N : ℚ) = (D : ℚ) * (N / D : ℕ) + (N % D : ℕ) := by
    exact_mod_cast (Nat.div_add_mod N D).symm
  have hr : ((N % D : ℕ) : ℚ) < D := by exact_mod_cast Nat.mod_lt N hD
  have hr0 : (0 : ℚ) ≤ ((N % D : ℕ) : ℚ) := by positivity
  have hy : (N : ℚ) / D = (N / D : ℕ) + ((N % D : ℕ) : ℚ) / D := by
    rw [hN]; field_simp; ring
  unfold roundHalfEven NearestEven
  simp only
  set q := N / D with hq
  set r := N % D with hrdef
  rw [hy]
  have hfrac_lt : ((r : ℚ)) / D < 1 := by rw [div_lt_one hDq]; exact hr
  have hfrac_nn : (0 : ℚ) ≤ (r : ℚ) / D := by positivity
  split_ifs with h1 h2 h3
  · have : (r : ℚ) / D < 1 / 2 := by
      rw [div_lt_iff₀ hDq]
      have : ((2 * r : ℕ) : ℚ) < D := by exact_mod_cast h1
      push_cast at this; linarith
    refine ⟨by linarith, by linarith, ?_⟩
    rintro (h | h) <;> linarith
  · have : 1 / 2 < (r : ℚ) / D := by
      rw [lt_div_iff₀ hDq]
      have : ((D : ℕ) : ℚ) < (2 * r : ℕ) := by exact_mod_cast h2
      push_cast at this; linarith
    push_cast
    refine ⟨by linarith, by linarith, ?_⟩
    rintro (h | h) <;> linarith
  · refine ⟨by linarith, ?_, fun _ => Nat.even_iff.mpr h3⟩
    have : (r : ℚ) / D = 1 / 2 := by
      have h2r : 2 * r = D := by omega
      have : (2 : ℚ) * r = D := by exact_mod_cast h2r
      rw [div_eq_iff (ne_of_gt hDq)]; linarith
    linarith
  · have hhalf : (r : ℚ) / D = 1 / 2 := by
      have h2r : 2 * r = D := by omega
      have : (2 : ℚ) * r = D := by exact_mod_cast h2r
      rw [div_eq_iff (ne_of_gt hDq)]; linarith
    push_cast
    refine ⟨by linarith, by linarith, fun _ => ?_⟩
    rw [Nat.even_add_one, Nat.even_iff]; exact h3

theorem nearestEven_mono {y1 y2 : ℚ} {m1 m2 : Nat} (h1 : NearestEven y1 m1)
    (h2 : NearestEven y2 m2) (h : y1 ≤ y2) : m1 ≤ m2 := by
  by_contra hlt
  push_neg at hlt
  have hge : (m2 : ℚ) + 1 ≤ m1 := by exact_mod_cast hlt
  obtain ⟨a1, b1, c1⟩ := h1
  obtain ⟨a2, b2, c2⟩ := h2
  have e1 : y1 = (m1 : ℚ) - 1 / 2 := by linarith
  have e2 : y2 = (m2 : ℚ) + 1 / 2 := by linarith
  have hm : (m1 : ℚ) = m2 + 1 := by linarith
  have hm' : m1 = m2 + 1 := by exact_mod_cast hm
  have ev1 := c1 (Or.inl e1)
  have ev2 := c2 (Or.inr e2)
  rw [hm', Nat.even_add_one] at ev1
  exact ev1 ev2

theorem scaled_bounds (n d a b : Nat) (hn : 0 < n) (hd : 0 < d)
    (hab : a + bitLen n n = 53 + bitLen d d + b) :
    2 ^ 52 * (d * 2 ^ b) < n * 2 ^ a ∧ n * 2 ^ a < 2 ^ 54 * (d * 2 ^ b) := by
  obtain ⟨n1, n2, n3⟩ := bitLen_spec n n hn le_rfl
  obtain ⟨d1, d2, d3⟩ := bitLen_spec d d hd le_rfl
  constructor
  · calc 2 ^ 52 * (d * 2 ^ b) < 2 ^ 52 * (2 ^ bitLen d d * 2 ^ b) := by
          apply Nat.mul_lt_mul_of_pos_left _ (by positivity)
          exact Nat.mul_lt_mul_of_pos_right d2 (by positivity)
      _ = 2 ^ (bitLen n n - 1 + a) := by
          rw [← pow_add, ← pow_add]; congr 1; omega
      _ = 2 ^ (bitLen n n - 1) * 2 ^ a := by rw [pow_add]
      _ ≤ n * 2 ^ a := Nat.mul_le_mul_right _ n1
  · calc n * 2 ^ a < 2 ^ bitLen n n * 2 ^ a :=
          Nat.mul_lt_mul_of_pos_right n2 (by positivity)
      _ = 2 ^ (54 + (bitLen d d - 1) + b) := by
          rw [← pow_add]; congr 1; omega
      _ = 2 ^ 54 * (2 ^ (bitLen d d - 1) * 2 ^ b) := by rw [pow_add, pow_add, mul_assoc]
      _ ≤ 2 ^ 54 * (d * 2 ^ b) := by
          apply Nat.mul_le_mul_left
          exact Nat.mul_le_mul_right _ d1

theorem round_spec (neg : Bool) (n d : Nat) (hn : 0 < n) (hd : 0 < d) :
    (round neg n d).neg = neg ∧ IsRound ((n : ℚ) / d) (round neg n d).m (round neg n d).e := by
  have hne : n ≠ 0 := by omega
  set s : Int := 53 + (bitLen d d : Int) - (bitLen n n : Int) with hs
  set a := s.toNat with ha
  set b := (-s).toNat with hb
  have hab : a + bitLen n n = 53 + bitLen d d + b := by omega
  obtain ⟨lo, hi⟩ := scaled_bounds n d a b hn hd hab
  have hpow : (2 : ℚ) ^ s = (2 : ℚ) ^ a / (2 : ℚ) ^ b := by
    have : s = (a : ℤ) - (b : ℤ) := by omega
    rw [this, zpow_sub₀ (by norm_num), zpow_natCast, zpow_natCast]
  have hnq : (0 : ℚ) < n := by exact_mod_cast hn
  have hdq : (0 : ℚ) < d := by exact_mod_cast hd
  have hDpos : 0 < d * 2 ^ b := by positivity
  have loq : (2 : ℚ) ^ 52 * ((d : ℚ) * 2 ^ b) < (n : ℚ) * 2 ^ a := by exact_mod_cast lo
  have hiq : (n : ℚ) * 2 ^ a < (2 : ℚ) ^ 54 * ((d : ℚ) * 2 ^ b) := by exact_mod_cast hi
  unfold round
  simp only [hne, if_false]
  rw [← hs, ← ha, ← hb]
  split_ifs with hc
  · refine ⟨rfl, ?_⟩
    have hcq : (2 : ℚ) ^ 53 * ((d : ℚ) * 2 ^ b) ≤ (n : ℚ) * 2 ^ a := by exact_mod_cast hc
    have hy : (n : ℚ) / d / (2 : ℚ) ^ (1 - s) = ((n * 2 ^ a : ℕ) : ℚ) / ((2 * (d * 2 ^ b) : ℕ) : ℚ) := by
      rw [zpow_sub₀ (by norm_num), hpow]
      push_cast
      field_simp
      ring
    simp only
    rw [IsRound, hy]
    refine ⟨?_, ?_, roundHalfEven_spec _ _ (by positivity)⟩
    · rw [le_div_iff₀ (by positivity)]; push_cast; linarith
    · rw [div_lt_iff₀ (by positivity)]; push_cast; linarith
  · refine ⟨rfl, ?_⟩
    have hcq : (n : ℚ) * 2 ^ a < (2 : ℚ) ^ 53 * ((d : ℚ) * 2 ^ b) := by
      push_neg at hc; exact_mod_cast hc
    have hy : (n : ℚ) / d / (2 : ℚ) ^ (-s) = ((n * 2 ^ a : ℕ) : ℚ) / ((d * 2 ^ b : ℕ) : ℚ) := by
      rw [zpow_neg, hpow]
      push_cast
      field_simp
    simp only
    rw [IsRound, hy]
    refine ⟨?_, ?_, roundHalfEven_spec _ _ (by positivity)⟩
    · rw [le_div_iff₀ (by positivity)]; push_cast; linarith
    · rw [div_lt_iff₀ (by positivity)]; push_cast; linarith

theorem two_zpow_pos (e : Int) : (0 : ℚ) < (2 : ℚ) ^ e := by positivity

theorem isRound_m_bounds {x : ℚ} {m : Nat} {e : Int} (h : IsRound x m e) :
    2 ^ 52 ≤ m ∧ m ≤ 2 ^ 53 := by
  obtain ⟨h1, h2, h3, h4, _⟩ := h
  constructor
  · have : ((2 ^ 52 : ℕ) : ℚ) < (m : ℚ) + 1 := by push_cast; linarith
    have : 2 ^ 52 < m + 1 := by exact_mod_cast this
    omega
  · have : (m : ℚ) < ((2 ^ 53 : ℕ) : ℚ) + 1 := by push_cast; linarith
    have : m < 2 ^ 53 + 1 := by exact_mod_cast this
    omega

theorem isRound_mono {x1 x2 : ℚ} {m1 m2 : Nat} {e1 e2 : Int} (h1 : IsRound x1 m1 e1)
    (h2 : IsRound x2 m2 e2) (h : x1 ≤ x2) :
    (m1 : ℚ) * (2 : ℚ) ^ e1 ≤ (m2 : ℚ) * (2 : ℚ) ^ e2 := by
  have p1 := two_zpow_pos e1
  have p2 := two_zpow_pos e2
  have a1 : (2 : ℚ) ^ 52 * (2 : ℚ) ^ e1 ≤ x1 := (le_div_iff₀ p1).mp h1.1
  have b2 : x2 < (2 : ℚ) ^ 53 * (2 : ℚ) ^ e2 := (div_lt_iff₀ p2).mp h2.2.1
  have hlt : (2 : ℚ) ^ e1 < (2 : ℚ) ^ (e2 + 1) := by
    rw [zpow_add₀ (by norm_num : (2 : ℚ) ≠ 0), zpow_one]
    have : (2 : ℚ) ^ 52 * (2 : ℚ) ^ e1 < (2 : ℚ) ^ 52 * ((2 : ℚ) ^ e2 * 2) := by
      calc (2 : ℚ) ^ 52 * (2 : ℚ) ^ e1 ≤ x1 := a1
        _ ≤ x2 := h
        _ < (2 : ℚ) ^ 53 * (2 : ℚ) ^ e2 := b2
        _ = (2 : ℚ) ^ 52 * ((2 : ℚ) ^ e2 * 2) := by ring
    exact lt_of_mul_lt_mul_left this (by positivity)
  have hle : e1 ≤ e2 := by
    have := (zpow_lt_zpow_iff_right₀ (by norm_num : (1 : ℚ) < 2)).mp hlt
    omega
  rcases eq_or_lt_of_le hle with he | he
  · subst he
    have : m1 ≤ m2 := nearestEven_mono h1.2.2 h2.2.2 (div_le_div_of_nonneg_right h (le_of_lt p1))
    have : (m1 : ℚ) ≤ m2 := by exact_mod_cast this
    exact mul_le_mul_of_nonneg_right this (le_of_lt p1)
  · have hm1 : (m1 : ℚ) ≤ (2 : ℚ) ^ 53 := by exact_mod_cast (isRound_m_bounds h1).2
    have hm2 : (2 : ℚ) ^ 52 ≤ (m2 : ℚ) := by exact_mod_cast (isRound_m_bounds h2).1
    have hstep : (2 : ℚ) ^ (e1 + 1) ≤ (2 : ℚ) ^ e2 := zpow_le_zpow_right₀ (by norm_num) (by omega)
    rw [zpow_add₀ (by norm_num : (2 : ℚ) ≠ 0), zpow_one] at hstep
    calc (m1 : ℚ) * (2 : ℚ) ^ e1 ≤ (2 : ℚ) ^ 53 * (2 : ℚ) ^ e1 :=
          mul_le_mul_of_nonneg_right hm1 (le_of_lt p1)
      _ = (2 : ℚ) ^ 52 * ((2 : ℚ) ^ e1 * 2) := by ring
      _ ≤ (2 : ℚ) ^ 52 * (2 : ℚ) ^ e2 := by
          apply mul_le_mul_of_nonneg_left hstep (by positivity)
      _ ≤ (m2 : ℚ) * (2 : ℚ) ^ e2 := mul_le_mul_of_nonneg_right hm2 (le_of_lt p2)

theorem isRound_scale {x : ℚ} {m : Nat} {e : Int} (k : Int) (h : IsRound x m e) :
    IsRound (x * (2 : ℚ) ^ k) m (e + k) := by
  have : x * (2 : ℚ) ^ k / (2 : ℚ) ^ (e + k) = x / (2 : ℚ) ^ e := by
    rw [zpow_add₀ (by norm_num : (2 : ℚ) ≠ 0)]
    field_simp
    ring
  unfold IsRound
  rw [this]
  exact h

/-- The relative error of a rounding is at most `2 ^ -53`. -/
theorem isRound_error {x : ℚ} {m : Nat} {e : Int} (h : IsRound x m e) :
    x * (1 - 1 / 2 ^ 53) ≤ (m : ℚ) * (2 : ℚ) ^ e ∧ (m : ℚ) * (2 : ℚ) ^ e ≤ x * (1 + 1 / 2 ^ 53) := by
  have p := two_zpow_pos e
  obtain ⟨h1, h2, h3, h4, _⟩ := h
  set y := x / (2 : ℚ) ^ e with hy
  have hx : x = y * (2 : ℚ) ^ e := by rw [hy]; field_simp
  have hhalf : (1 : ℚ) / 2 ≤ y * (1 / 2 ^ 53) := by
    have : (2 : ℚ) ^ 52 * (1 / 2 ^ 53) ≤ y * (1 / 2 ^ 53) :=
      mul_le_mul_of_nonneg_right h1 (by positivity)
    norm_num at this ⊢
    linarith
  rw [hx]
  constructor
  · have : y * (1 - 1 / 2 ^ 53) ≤ (m : ℚ) := by linarith
    calc y * (2 : ℚ) ^ e * (1 - 1 / 2 ^ 53) = y * (1 - 1 / 2 ^ 53) * (2 : ℚ) ^ e := by ring
      _ ≤ (m : ℚ) * (2 : ℚ) ^ e := mul_le_mul_of_nonneg_right this (le_of_lt p)
  · have : (m : ℚ) ≤ y * (1 + 1 / 2 ^ 53) := by linarith
    calc (m : ℚ) * (2 : ℚ) ^ e ≤ y * (1 + 1 / 2 ^ 53) * (2 : ℚ) ^ e :=
          mul_le_mul_of_nonneg_right this (le_of_lt p)
      _ = y * (2 : ℚ) ^ e * (1 + 1 / 2 ^ 53) := by ring

/-- A number with a 53-bit significand is its own rounding. -/
theorem isRound_exact {x : ℚ} {m : Nat} {e : Int} (h : IsRound x m e) (k : Nat) (j : Int)
    (hk1 : 2 ^ 52 ≤ k) (hk2 : k < 2 ^ 53) (hx : x = (k : ℚ) * (2 : ℚ) ^ j) :
    (m : ℚ) * (2 : ℚ) ^ e = x := by
  have p := two_zpow_pos e
  have pj := two_zpow_pos j
  have hk1q : (2 : ℚ) ^ 52 ≤ (k : ℚ) := by exact_mod_cast hk1
  have hk2q : (k : ℚ) < (2 : ℚ) ^ 53 := by exact_mod_cast hk2
  obtain ⟨h1, h2, h3, h4, h5⟩ := h
  have a1 : (2 : ℚ) ^ 52 * (2 : ℚ) ^ e ≤ x := (le_div_iff₀ p).mp h1
  have b1 : x < (2 : ℚ) ^ 53 * (2 : ℚ) ^ e := (div_lt_iff₀ p).mp h2
  have hje : j = e := by
    apply le_antisymm
    · by_contra hn
      push_neg at hn
      have hstep : (2 : ℚ) ^ (e + 1) ≤ (2 : ℚ) ^ j := zpow_le_zpow_right₀ (by norm_num) (by omega)
      rw [zpow_add₀ (by norm_num : (2 : ℚ) ≠ 0), zpow_one] at hstep
      have : (2 : ℚ) ^ 53 * (2 : ℚ) ^ e ≤ x := by
        rw [hx]
        calc (2 : ℚ) ^ 53 * (2 : ℚ) ^ e = (2 : ℚ) ^ 52 * ((2 : ℚ) ^ e * 2) := by ring
          _ ≤ (2 : ℚ) ^ 52 * (2 : ℚ) ^ j := mul_le_mul_of_nonneg_left hstep (by positivity)
          _ ≤ (k : ℚ) * (2 : ℚ) ^ j := mul_le_mul_of_nonneg_right hk1q (le_of_lt pj)
      linarith
    · by_contra hn
      push_neg at hn
      have hstep : (2 : ℚ) ^ (j + 1) ≤ (2 : ℚ) ^ e := zpow_le_zpow_right₀ (by norm_num) (by omega)
      rw [zpow_add₀ (by norm_num : (2 : ℚ) ≠ 0), zpow_one] at hstep
      have : x < (2 : ℚ) ^ 52 * (2 : ℚ) ^ e := by
        rw [hx]
        calc (k : ℚ) * (2 : ℚ) ^ j < (2 : ℚ) ^ 53 * (2 : ℚ) ^ j :=
              mul_lt_mul_of_pos_right hk2q pj
          _ = (2 : ℚ) ^ 52 * ((2 : ℚ) ^ j * 2) := by ring
          _ ≤ (2 : ℚ) ^ 52 * (2 : ℚ) ^ e := mul_le_mul_of_nonneg_left hstep (by positivity)
      linarith
  subst hje
  have hy : x / (2 : ℚ) ^ j = (k : ℚ) := by rw [hx]; field_simp
  rw [hy] at h3 h4
  have hmk : m = k := by
    have c1 : (m : ℚ) < (k : ℚ) + 1 := by linarith
    have c2 : (k : ℚ) < (m : ℚ) + 1 := by linarith
    have c1' : m < k + 1 := by exact_mod_cast c1
    have c2' : k < m + 1 := by exact_mod_cast c2
    omega
  rw [hmk, hx]

theorem rounds_val {x : ℚ} {a : F64} (h : Rounds x a) : a.val = (a.m : ℚ) * (2 : ℚ) ^ a.e := by
  simp [F64.val, h.1]

theorem rounds_m_pos {x : ℚ} {a : F64} (h : Rounds x a) : 0 < a.m := by
  have := (isRound_m_bounds h.2).1
  have : 0 < 2 ^ 52 := by positivity
  omega

theorem rounds_val_pos {x : ℚ} {a : F64} (h : Rounds x a) : 0 < a.val := by
  rw [rounds_val h]
  have : (0 : ℚ) < a.m := by exact_mod_cast rounds_m_pos h
  positivity

theorem rounds_mono {x y : ℚ} {a b : F64} (ha : Rounds x a) (hb : Rounds y b) (h : x ≤ y) :
    a.val ≤ b.val := by
  rw [rounds_val ha, rounds_val hb]
  exact isRound_mono ha.2 hb.2 h

theorem rounds_error {x : ℚ} {a : F64} (h : Rounds x a) :
    x * (1 - 1 / 2 ^ 53) ≤ a.val ∧ a.val ≤ x * (1 + 1 / 2 ^ 53) := by
  rw [rounds_val h]
  exact isRound_error h.2

theorem rounds_exact {x : ℚ} {a : F64} (h : Rounds x a) (k : Nat) (j : Int)
    (hk1 : 2 ^ 52 ≤ k) (hk2 : k < 2 ^ 53) (hx : x = (k : ℚ) * (2 : ℚ) ^ j) : a.val = x := by
  rw [rounds_val h]
  exact isRound_exact h.2 k j hk1 hk2 hx

theorem rounds_ofInt (x : Int) (hx : 0 < x) : Rounds (x : ℚ) (ofInt x) := by
  have hn : 0 < x.natAbs := by omega
  obtain ⟨h1, h2⟩ := round_spec (decide (x < 0)) x.natAbs 1 hn (by norm_num)
  have hcast : ((x.natAbs : ℕ) : ℚ) / ((1 : ℕ) : ℚ) = (x : ℚ) := by
    have : ((x.natAbs : ℕ) : ℤ) = x := by omega
    have h3 : ((x.natAbs : ℕ) : ℚ) = (x : ℚ) := by rw [← Int.cast_natCast, this]
    simp [h3]
  rw [hcast] at h2
  refine ⟨?_, h2⟩
  show (round (decide (x < 0)) x.natAbs 1).neg = false
  rw [h1]
  simp; omega

theorem rounds_div {x y : ℚ} {a b : F64} (ha : Rounds x a) (hb : Rounds y b) :
    Rounds (a.val / b.val) (div a b) := by
  obtain ⟨h1, h2⟩ := round_spec (xor a.neg b.neg) a.m b.m (rounds_m_pos ha) (rounds_m_pos hb)
  have hbm : (0 : ℚ) < b.m := by exact_mod_cast rounds_m_pos hb
  refine ⟨?_, ?_⟩
  · show (round (xor a.neg b.neg) a.m b.m).neg = false
    rw [h1, ha.1, hb.1]; rfl
  · have := isRound_scale (a.e - b.e) h2
    have heq : (a.m : ℚ) / b.m * (2 : ℚ) ^ (a.e - b.e) = a.val / b.val := by
      rw [rounds_val ha, rounds_val hb, zpow_sub₀ (by norm_num : (2 : ℚ) ≠ 0)]
      field_simp
    rw [heq] at this
    have he : (round (xor a.neg b.neg) a.m b.m).e + (a.e - b.e) = (div a b).e := by
      simp only [div]; ring
    rw [he] at this
    exact this

theorem rounds_mul {x y : ℚ} {a b : F64} (ha : Rounds x a) (hb : Rounds y b) :
    Rounds (a.val * b.val) (mul a b) := by
  have hpos : 0 < a.m * b.m := Nat.mul_pos (rounds_m_pos ha) (rounds_m_pos hb)
  obtain ⟨h1, h2⟩ := round_spec (xor a.neg b.neg) (a.m * b.m) 1 hpos (by norm_num)
  refine ⟨?_, ?_⟩
  · show (round (xor a.neg b.neg) (a.m * b.m) 1).neg = false
    rw [h1, ha.1, hb.1]; rfl
  · have := isRound_scale (a.e + b.e) h2
    have heq : ((a.m * b.m : ℕ) : ℚ) / ((1 : ℕ) : ℚ) * (2 : ℚ) ^ (a.e + b.e) = a.val * b.val := by
      rw [rounds_val ha, rounds_val hb, zpow_add₀ (by norm_num : (2 : ℚ) ≠ 0)]
      push_cast
      ring
    rw [heq] at this
    have he : (round (xor a.neg b.neg) (a.m * b.m) 1).e + (a.e + b.e) = (mul a b).e := by
      simp only [mul]; ring
    rw [he] at this
    exact this

theorem toInt_eq_floor {x : ℚ} {a : F64} (h : Rounds x a) : toInt a = ⌊a.val⌋ := by
  rw [rounds_val h]
  have hpow : (2 : ℚ) ^ a.e = (2 : ℚ) ^ a.e.toNat / (2 : ℚ) ^ (-a.e).toNat := by
    have : a.e = (a.e.toNat : ℤ) - ((-a.e).toNat : ℤ) := by omega
    conv_lhs => rw [this]
    rw [zpow_sub₀ (by norm_num), zpow_natCast, zpow_natCast]
  have hval : (a.m : ℚ) * (2 : ℚ) ^ a.e
      = ((a.m * 2 ^ a.e.toNat : ℕ) : ℚ) / ((2 ^ (-a.e).toNat : ℕ) : ℚ) := by
    rw [hpow]; push_cast; ring
  rw [hval, Rat.floor_natCast_div_natCast]
  simp [toInt, h.1]

end float64

namespace oauth

theorem getD_default_irrel {α : Type} (l : List α) (i : Nat) (h : i < l.length) (d e : α) :
    l.getD i d = l.getD i e := by
  simp [List.getD_eq_getElem, h]

/-- A call whose base result carries the access token already seen returns
the base token and leaves the receiver and the world as they were. -/
theorem Token_same {σ : Type} (Branch : String) (w : watchTokenSource σ) (world : σ)
    (last t : oauth2.Token) (hl : w.lastTok = some last)
    (h : t.AccessToken = last.AccessToken) :
    watchTokenSource.Token Branch w (okResult t) world
      = { tok := some t, err := none, panicked := false, w := w, world := world } := by
  simp [watchTokenSource.Token, okResult, hl, h]

/-- A call whose base result carries a new access token stores the token and
runs the callback once on the tagged token. -/
theorem Token_rotated {σ : Type} (Branch : String) (w : watchTokenSource σ) (world : σ)
    (last t : oauth2.Token) (f : Token → σ → σ) (hl : w.lastTok = some last)
    (hf : w.onRefresh = some f) (h : t.AccessToken ≠ last.AccessToken) :
    watchTokenSource.Token Branch w (okResult t) world
      = { tok := some t, err := none, panicked := false, w := { w with lastTok := some t },
          world := f { Token := some t, Branch := Branch } world } := by
  simp [watchTokenSource.Token, okResult, hl, hf, h]

/-- A run in which every base token carries the access token already seen:
every call returns its base token, nothing else changes. -/
theorem run_unchanged {σ : Type} (Branch : String) (w : watchTokenSource σ) (world : σ)
    (last : oauth2.Token) (toks : List oauth2.Token) (hl : w.lastTok = some last)
    (h : ∀ t ∈ toks, t.AccessToken = last.AccessToken) :
    watchTokenSource.run Branch w world (toks.map okResult)
      = toks.map (fun t =>
          { tok := some t, err := none, panicked := false, w := w, world := world }) := by
  induction toks with
  | nil => simp [watchTokenSource.run]
  | cons t ts ih =>
    have ht : t.AccessToken = last.AccessToken := h t (by simp)
    have hts : ∀ x ∈ ts, x.AccessToken = last.AccessToken := fun x hx => h x (by simp [hx])
    simp only [List.map_cons, watchTokenSource.run, Token_same Branch w world last t hl ht]
    simp [ih hts]

/-- Tokens that each carry the access token of the one before them all carry
the access token of the first. -/
theorem chain_all_same (t p : oauth2.Token) (ts : List oauth2.Token)
    (h : ∀ j, j < ts.length →
      (ts.getD j p).AccessToken = (seenBefore t ts j).AccessToken) :
    ∀ x ∈ ts, x.AccessToken = t.AccessToken := by
  induction ts generalizing t with
  | nil => simp
  | cons u us ih =>
    have hu : u.AccessToken = t.AccessToken := by
      simpa [seenBefore] using h 0 (by simp)
    have hus : ∀ x ∈ us, x.AccessToken = u.AccessToken := by
      apply ih u
      intro j hj
      have hj1 := h (j + 1) (by simpa using hj)
      simp only [List.getD_cons_succ, seenBefore] at hj1
      rw [hj1]
      cases j with
      | zero => simp [seenBefore]
      | succ i =>
        simp only [List.getD_cons_succ, seenBefore]
        exact congrArg oauth2.Token.AccessToken (getD_default_irrel us i (by omega) _ _)
    intro x hx
    rcases List.mem_cons.mp hx with rfl | hx
    · exact hu
    · rw [hus x hx, hu]

/-- The run of a token source over base tokens of which exactly the one at
position `k` differs from the token seen before it. -/
theorem run_one_rotation {σ : Type} (Branch : String) (f : Token → σ → σ)
    (toks : List oauth2.Token) :
    ∀ (w : watchTokenSource σ) (world : σ) (p last : oauth2.Token) (k : Nat),
      w.lastTok = some last → last.AccessToken = p.AccessToken → w.onRefresh = some f →
      k < toks.length →
      (∀ i, i < toks.length →
        ((toks.getD i p).AccessToken ≠ (seenBefore p toks i).AccessToken ↔ i = k)) →
      ∀ i, i < toks.length →
        (watchTokenSource.run Branch w world (toks.map okResult))[i]?
          = some { tok := toks[i]?, err := none, panicked := false,
                   w := if i < k then w else { w with lastTok := toks[k]? },
                   world := if i < k then world
                            else f { Token := toks[k]?, Branch := Branch } world } := by
  induction toks with
  | nil => intro w world p last k _ _ _ hk; simp at hk
  | cons t ts ih =>
    intro w world p last k hl hp hf hk H i hi
    cases k with
    | zero =>
      have h0 : t.AccessToken ≠ last.AccessToken := by
        have := (H 0 (by simp)).mpr rfl
        simpa [seenBefore, hp] using this
      have hrest : ∀ x ∈ ts, x.AccessToken = t.AccessToken := by
        apply chain_all_same t p
        intro j hj
        have hj1 := H (j + 1) (by simpa using hj)
        have : ¬ ((t :: ts).getD (j + 1) p).AccessToken
            ≠ (seenBefore p (t :: ts) (j + 1)).AccessToken := by
          rw [hj1]; omega
        simp only [List.getD_cons_succ, seenBefore, ne_eq, not_not] at this
        rw [this]
        cases j with
        | zero => simp [seenBefore]
        | succ m =>
          simp only [List.getD_cons_succ, seenBefore]
          exact congrArg oauth2.Token.AccessToken (getD_default_irrel ts m (by omega) _ _)
      simp only [List.map_cons, watchTokenSource.run,
        Token_rotated Branch w world last t f hl hf h0]
      rw [run_unchanged Branch _ _ t ts rfl hrest]
      cases i with
      | zero => simp
      | succ m =>
        have hm : m < ts.length := by simpa using hi
        simp [List.getElem?_eq_getElem hm]
    | succ k1 =>
      have h0 : t.AccessToken = last.AccessToken := by
        have := (H 0 (by simp))
        simp only [List.getD_cons_zero, seenBefore, ne_eq] at this
        have h2 : ¬ ¬ t.AccessToken = p.AccessToken := fun hn => by
          have := this.mp hn
          omega
        rw [hp]; exact not_not.mp h2
      simp only [List.map_cons, watchTokenSource.run,
        Token_same Branch w world last t hl h0]
      cases i with
      | zero => simp
      | succ m =>
        have hm : m < ts.length := by simpa using hi
        have hk1 : k1 < ts.length := by simpa using hk
        have H1 : ∀ j, j < ts.length →
            ((ts.getD j t).AccessToken ≠ (seenBefore t ts j).AccessToken ↔ j = k1) := by
          intro j hj
          have hj1 := H (j + 1) (by simpa using hj)
          simp only [List.getD_cons_succ, seenBefore, Nat.add_right_cancel_iff] at hj1
          rw [← hj1, getD_default_irrel ts j hj t p]
          cases j with
          | zero => simp [seenBefore]
          | succ n =>
            simp only [List.getD_cons_succ, seenBefore]
            rw [getD_default_irrel ts n (by omega) t p]
        have := ih w world t last k1 hl (h0.symm) hf hk1 H1 m hm
        simpa using this

/-- C3: when the base source fails, `watchTokenSource.Token` returns that
error with a nil token, leaves the receiver (its `lastTok` included) as it
was and does not run the callback, whatever the state of the receiver. -/
theorem Token_base_error {σ : Type} (Branch : String) (w : watchTokenSource σ)
    (base : oauth2.TokenResult) (world : σ) (e : GoError) (h : base.err = some e) :
    (watchTokenSource.Token Branch w base world).tok = none ∧
    (watchTokenSource.Token Branch w base world).err = some e ∧
    (watchTokenSource.Token Branch w base world).panicked = false ∧
    (watchTokenSource.Token Branch w base world).w = w ∧
    (watchTokenSource.Token Branch w base world).w.lastTok = w.lastTok ∧
    (watchTokenSource.Token Branch w base world).world = world := by
  simp [watchTokenSource.Token, h]

theorem run_length_le {σ : Type} (Branch : String) (rs : List oauth2.TokenResult) :
    ∀ (w : watchTokenSource σ) (world : σ),
      (watchTokenSource.run Branch w world rs).length ≤ rs.length := by
  induction rs with
  | nil => intro w world; simp [watchTokenSource.run]
  | cons r rs ih =>
    intro w world
    simp only [watchTokenSource.run]
    split
    · simp
    · simpa using ih _ _

/-- C1: a token source built by `WatchTokenSource` from an initial token
`tok0` with a callback `f` is called `toks.length` times, the base source
answering call `i` with `toks[i]`; exactly call `k` brings an access token
different from the one seen just before it.  Then every call returns its base
token without error, and the state the callback acts on is untouched after
each call before `k` and is `f` applied once, to the token that wraps
`toks[k]` with `Branch`, after call `k` and after every later call: the
callback ran exactly once, on call `k`. -/
theorem Token_single_rotation {σ : Type} (Branch path : String) (tok : Token)
    (tok0 : oauth2.Token) (f : Token → σ → σ) (world : σ) (toks : List oauth2.Token)
    (k : Nat) (h0 : tok.Token = some tok0) (hk : k < toks.length)
    (H : ∀ i, i < toks.length →
      ((toks.getD i tok0).AccessToken ≠ (seenBefore tok0 toks i).AccessToken ↔ i = k)) :
    (watchTokenSource.run Branch (WatchTokenSource path tok (some f)) world
        (toks.map okResult)).length = toks.length ∧
    ∀ i, i < toks.length →
      (watchTokenSource.run Branch (WatchTokenSource path tok (some f)) world
          (toks.map okResult))[i]?
        = some { tok := toks[i]?, err := none, panicked := false,
                 w := if i < k then WatchTokenSource path tok (some f)
                      else { WatchTokenSource path tok (some f) with lastTok := toks[k]? },
                 world := if i < k then world
                          else f { Token := toks[k]?, Branch := Branch } world } := by
  have main := run_one_rotation Branch f toks (WatchTokenSource path tok (some f)) world
    tok0 tok0 k (by simp [WatchTokenSource, h0]) rfl rfl hk H
  refine ⟨?_, main⟩
  apply le_antisymm
  · simpa using run_length_le Branch (toks.map okResult)
      (WatchTokenSource path tok (some f)) world
  · by_contra hlt
    push_neg at hlt
    cases hn : toks.length with
    | zero => omega
    | succ n =>
      have hlast := main n (by omega)
      have : n < (watchTokenSource.run Branch (WatchTokenSource path tok (some f)) world
          (toks.map okResult)).length := by
        by_contra hge
        rw [List.getElem?_eq_none (by omega)] at hlast
        exact Option.noConfusion hlast
      omega

/-- C1 at a concrete run: the initial access token is "a", the three calls
bring "a", "b", "b", the callback logs its argument; after the second call
the log holds exactly the token "b" tagged "release". -/
theorem Token_single_rotation_witness :
    (watchTokenSource.run "release"
        (WatchTokenSource "cred.json"
          { Token := some ⟨"a", "Bearer", "r", ⟨0, "UTC"⟩⟩, Branch := "release" }
          (some recordRefresh)) []
        ([⟨"a", "Bearer", "r", ⟨0, "UTC"⟩⟩, ⟨"b", "Bearer", "r", ⟨9, "UTC"⟩⟩,
          ⟨"b", "Bearer", "r", ⟨9, "UTC"⟩⟩].map okResult)).length = 3 ∧
    ((watchTokenSource.run "release"
        (WatchTokenSource "cred.json"
          { Token := some ⟨"a", "Bearer", "r", ⟨0, "UTC"⟩⟩, Branch := "release" }
          (some recordRefresh)) []
        ([⟨"a", "Bearer", "r", ⟨0, "UTC"⟩⟩, ⟨"b", "Bearer", "r", ⟨9, "UTC"⟩⟩,
          ⟨"b", "Bearer", "r", ⟨9, "UTC"⟩⟩].map okResult))[2]?).map (fun c => c.world)
      = some [{ Token := some ⟨"b", "Bearer", "r", ⟨9, "UTC"⟩⟩, Branch := "release" }] := by
  have h := Token_single_rotation "release" "cred.json"
    { Token := some ⟨"a", "Bearer", "r", ⟨0, "UTC"⟩⟩, Branch := "release" }
    ⟨"a", "Bearer", "r", ⟨0, "UTC"⟩⟩ recordRefresh []
    [⟨"a", "Bearer", "r", ⟨0, "UTC"⟩⟩, ⟨"b", "Bearer", "r", ⟨9, "UTC"⟩⟩,
      ⟨"b", "Bearer", "r", ⟨9, "UTC"⟩⟩] 1 rfl (by decide) (by decide)
  refine ⟨h.1, ?_⟩
  rw [h.2 2 (by decide)]
  rfl

/-- C2: when every token the base source returns carries the access token
of the initial token, every call of `watchTokenSource.Token` returns the base
token without error and leaves the state the callback acts on untouched,
whatever the callback is: the callback is never run. -/
theorem Token_no_rotation {σ : Type} (Branch path : String) (tok : Token)
    (tok0 : oauth2.Token) (onRefresh : Option (Token → σ → σ)) (world : σ)
    (toks : List oauth2.Token) (h0 : tok.Token = some tok0)
    (h : ∀ t ∈ toks, t.AccessToken = tok0.AccessToken) :
    watchTokenSource.run Branch (WatchTokenSource path tok onRefresh) world
        (toks.map okResult)
      = toks.map (fun t =>
          { tok := some t, err := none, panicked := false,
            w := WatchTokenSource path tok onRefresh, world := world }) := by
  exact run_unchanged Branch _ world tok0 toks (by simp [WatchTokenSource, h0]) h

/-- C2 at a concrete run: two calls bring the initial access token "a"
again, with a later expiry; the log of the recording callback stays empty. -/
theorem Token_no_rotation_witness :
    (watchTokenSource.run "release"
        (WatchTokenSource "cred.json"
          { Token := some ⟨"a", "Bearer", "r", ⟨0, "UTC"⟩⟩, Branch := "release" }
          (some recordRefresh)) []
        ([⟨"a", "Bearer", "r", ⟨0, "UTC"⟩⟩, ⟨"a", "Bearer", "r", ⟨7, "UTC"⟩⟩].map
          okResult)).map (fun c => (c.tok, c.err, c.world))
      = [(some ⟨"a", "Bearer", "r", ⟨0, "UTC"⟩⟩, none, []),
         (some ⟨"a", "Bearer", "r", ⟨7, "UTC"⟩⟩, none, [])] := by
  rw [Token_no_rotation "release" "cred.json"
    { Token := some ⟨"a", "Bearer", "r", ⟨0, "UTC"⟩⟩, Branch := "release" }
    ⟨"a", "Bearer", "r", ⟨0, "UTC"⟩⟩ (some recordRefresh) []
    [⟨"a", "Bearer", "r", ⟨0, "UTC"⟩⟩, ⟨"a", "Bearer", "r", ⟨7, "UTC"⟩⟩] rfl (by decide)]
  rfl

/-- C3 at a concrete call: the base source fails with a library error. -/
theorem Token_base_error_witness :
    (watchTokenSource.Token "release"
        (WatchTokenSource "cred.json"
          { Token := some ⟨"a", "Bearer", "r", ⟨0, "UTC"⟩⟩, Branch := "release" }
          (some recordRefresh))
        { tok := none, err := some (GoError.lib "oauth2: token expired") } []).err
      = some (GoError.lib "oauth2: token expired") ∧
    (watchTokenSource.Token "release"
        (WatchTokenSource "cred.json"
          { Token := some ⟨"a", "Bearer", "r", ⟨0, "UTC"⟩⟩, Branch := "release" }
          (some recordRefresh))
        { tok := none, err := some (GoError.lib "oauth2: token expired") } []).world = [] :=
  have h := Token_base_error "release"
    (WatchTokenSource "cred.json"
      { Token := some ⟨"a", "Bearer", "r", ⟨0, "UTC"⟩⟩, Branch := "release" }
      (some recordRefresh))
    { tok := none, err := some (GoError.lib "oauth2: token expired") } []
    (GoError.lib "oauth2: token expired") rfl
  ⟨h.2.1, h.2.2.2.2.2⟩

/-- C6: `LoadCredentials` returns no token and the environment-mismatch
error for the branch `b` exactly when the file could be read and decoded and
the branch `b` it carries (the empty string when the file has no branch field)
differs from `Branch`.  The error names both branches; a file that is absent
or unreadable and a file that does not decode never produce it: they produce
the library's error. -/
theorem LoadCredentials_mismatch (codec : json.TokenCodec) (Branch : String) (fs : os.FS)
    (path b : String) :
    LoadCredentials codec Branch fs path = (none, some (branchMismatch b Branch)) ↔
      ∃ data tok, os.ReadFile fs path = .ok data ∧ codec.Unmarshal data = .ok tok ∧
        tok.Branch = b ∧ b ≠ Branch := by
  have hread : ∀ e, os.ReadFile fs path = .error e → ∃ msg, e = GoError.lib msg := by
    intro e he
    unfold os.ReadFile os.Open at he
    cases hd : fs.denied path with
    | some m =>
      rw [hd] at he
      simp only at he
      injection he with he
      exact ⟨m, he.symm⟩
    | none =>
      rw [hd] at he
      cases hf : fs.files path with
      | none =>
        rw [hf] at he
        simp only at he
        injection he with he
        exact ⟨_, he.symm⟩
      | some f =>
        rw [hf] at he
        simp only [os.Handle.readAll] at he
        cases hu : fs.unreadable path with
        | none => rw [hu] at he; simp at he
        | some m =>
          rw [hu] at he
          simp only [Option.map_some'] at he
          injection he with he
          exact ⟨m, he.symm⟩
  unfold LoadCredentials
  constructor
  · intro h
    cases hr : os.ReadFile fs path with
    | error e =>
      rw [hr] at h
      obtain ⟨m, rfl⟩ := hread e hr
      simp [branchMismatch] at h
    | ok data =>
      simp only [hr] at h
      cases hu : codec.Unmarshal data with
      | error m => simp [hu, branchMismatch] at h
      | ok tok =>
        simp only [hu] at h
        by_cases hb : tok.Branch ≠ Branch
        · rw [if_pos hb] at h
          simp only [branchMismatch, Prod.mk.injEq, Option.some.injEq, GoError.errorf.injEq,
            List.cons.injEq, and_true, true_and] at h
          exact ⟨data, tok, rfl, hu, h, by rw [← h]; exact hb⟩
        · rw [if_neg hb] at h
          simp at h
  · rintro ⟨data, tok, hr, hu, hb, hne⟩
    rw [hr]
    simp only [hu]
    rw [if_pos (by rw [hb]; exact hne), hb]

/-- A file that `SaveCredentials` wrote without error and that can be read
back holds the bytes `json.MarshalIndent` produced. -/
theorem SaveCredentials_ReadFile (codec : json.TokenCodec) (fs fs1 : os.FS)
    (path : String) (tok : Token)
    (hsave : SaveCredentials codec fs path (some tok) = (fs1, none))
    (hread : fs1.unreadable path = none) :
    ∃ data, codec.MarshalIndent (some tok) = .ok data ∧ os.ReadFile fs1 path = .ok data := by
  unfold SaveCredentials at hsave
  cases hm : codec.MarshalIndent (some tok) with
  | error m => rw [hm] at hsave; simp at hsave
  | ok data =>
    rw [hm] at hsave
    simp only [os.WriteFile] at hsave
    cases hc : os.Create fs path with
    | error e => rw [hc] at hsave; simp at hsave
    | ok fs2 =>
      rw [hc] at hsave
      simp only [Prod.mk.injEq] at hsave
      obtain ⟨hfs, hw⟩ := hsave
      have hden : fs.denied path = none := by
        unfold os.Create at hc
        cases hd : fs.denied path with
        | none => rfl
        | some m => rw [hd] at hc; simp at hc
      have hwd : (os.Write fs.limit [] data).1 = data := by
        unfold os.Write at hw ⊢
        cases hl : fs.limit with
        | none => simp
        | some l =>
          rw [hl] at hw
          simp only at hw ⊢
          by_cases hle : ([] : List UInt8).length + data.length ≤ l
          · rw [if_pos hle]; simp
          · rw [if_neg hle] at hw; simp at hw
      refine ⟨data, rfl, ?_⟩
      rw [← hfs] at hread ⊢
      simp only [os.ReadFile, os.Open, os.FS.set, hden, if_true, hwd, os.Handle.readAll]
      simp only [os.FS.set] at hread
      rw [hread]
      rfl

end oauth

namespace ioutil

open float64

/-- The value `float64(100)` is exactly one hundred. -/
theorem ofInt_hundred_val : (ofInt 100).val = 100 := by
  have h := rounds_ofInt 100 (by norm_num)
  have := rounds_exact h 7036874417766400 (-46) (by norm_num) (by norm_num)
    (by norm_num [zpow_neg])
  simpa using this

/-- The chain of roundings behind `percentOf d T` for positive `d` and `T`. -/
theorem percentOf_chain (d T : Int) (hd : 0 < d) (hT : 0 < T) :
    Rounds ((ofInt d).val / (ofInt T).val) (float64.div (ofInt d) (ofInt T)) ∧
    Rounds ((float64.div (ofInt d) (ofInt T)).val * 100)
      (float64.mul (float64.div (ofInt d) (ofInt T)) (ofInt 100)) ∧
    percentOf d T = ⌊(float64.mul (float64.div (ofInt d) (ofInt T)) (ofInt 100)).val⌋ := by
  have hA := rounds_ofInt d hd
  have hB := rounds_ofInt T hT
  have hC := rounds_ofInt 100 (by norm_num)
  have hQ := rounds_div hA hB
  have hP := rounds_mul hQ hC
  rw [ofInt_hundred_val] at hP
  exact ⟨hQ, hP, toInt_eq_floor hP⟩

theorem percentOf_mono (d1 d2 T : Int) (hd : 0 < d1) (h : d1 ≤ d2) (hT : 0 < T) :
    percentOf d1 T ≤ percentOf d2 T := by
  have hd2 : 0 < d2 := by omega
  obtain ⟨q1, p1, e1⟩ := percentOf_chain d1 T hd hT
  obtain ⟨q2, p2, e2⟩ := percentOf_chain d2 T hd2 hT
  rw [e1, e2]
  apply Int.floor_le_floor
  apply rounds_mono p1 p2
  apply mul_le_mul_of_nonneg_right _ (by norm_num)
  apply rounds_mono q1 q2
  apply div_le_div_of_nonneg_right _ (le_of_lt (rounds_val_pos (rounds_ofInt T hT)))
  exact rounds_mono (rounds_ofInt d1 hd) (rounds_ofInt d2 hd2) (by exact_mod_cast h)

theorem percentOf_nonneg (d T : Int) (hd : 0 < d) (hT : 0 < T) : 0 ≤ percentOf d T := by
  obtain ⟨_, p, e⟩ := percentOf_chain d T hd hT
  rw [e]
  exact Int.floor_nonneg.mpr (le_of_lt (rounds_val_pos p))

theorem percentOf_full (T : Int) (hT : 0 < T) : percentOf T T = 100 := by
  obtain ⟨q, p, e⟩ := percentOf_chain T T hT hT
  have hB := rounds_val_pos (rounds_ofInt T hT)
  rw [div_self (ne_of_gt hB)] at q
  have hq : (float64.div (ofInt T) (ofInt T)).val = 1 :=
    rounds_exact q (2 ^ 52) (-52) (by norm_num) (by norm_num) (by norm_num [zpow_neg])
  rw [hq] at p
  have hp := rounds_exact p 7036874417766400 (-46) (by norm_num) (by norm_num)
    (by norm_num [zpow_neg])
  rw [e, hp]
  norm_num

/-- The value under the truncation of `percentOf d T` is within a relative
error of `2 ^ -50` of `100 * d / T`. -/
theorem percent_value_bounds (d T : Int) (hd : 0 < d) (hT : 0 < T) :
    100 * ((d : ℚ) / T) * (1 - 1 / 2 ^ 50)
      ≤ (float64.mul (float64.div (ofInt d) (ofInt T)) (ofInt 100)).val ∧
    (float64.mul (float64.div (ofInt d) (ofInt T)) (ofInt 100)).val
      ≤ 100 * ((d : ℚ) / T) * (1 + 1 / 2 ^ 50) := by
  obtain ⟨hQ, hP, _⟩ := percentOf_chain d T hd hT
  have hA := rounds_error (rounds_ofInt d hd)
  have hB := rounds_error (rounds_ofInt T hT)
  have hQe := rounds_error hQ
  have hPe := rounds_error hP
  have hx : (0 : ℚ) < d := by exact_mod_cast hd
  have ht : (0 : ℚ) < T := by exact_mod_cast hT
  set A := (ofInt d).val
  set B := (ofInt T).val
  set Q := (float64.div (ofInt d) (ofInt T)).val
  set P := (float64.mul (float64.div (ofInt d) (ofInt T)) (ofInt 100)).val
  have hBpos : 0 < B := rounds_val_pos (rounds_ofInt T hT)
  have hApos : 0 < A := rounds_val_pos (rounds_ofInt d hd)
  have hQpos : 0 < Q := rounds_val_pos hQ
  have hu1 : (0 : ℚ) < 1 - 1 / 2 ^ 53 := by norm_num
  have hu2 : (0 : ℚ) < 1 + 1 / 2 ^ 53 := by norm_num
  have hBlo : 0 < (T : ℚ) * (1 - 1 / 2 ^ 53) := by positivity
  have hABhi : A / B ≤ (d : ℚ) * (1 + 1 / 2 ^ 53) / ((T : ℚ) * (1 - 1 / 2 ^ 53)) :=
    div_le_div₀ (by positivity) hA.2 hBlo hB.1
  have hABlo : (d : ℚ) * (1 - 1 / 2 ^ 53) / ((T : ℚ) * (1 + 1 / 2 ^ 53)) ≤ A / B :=
    div_le_div₀ (le_of_lt hApos) hA.1 hBpos hB.2
  constructor
  · have h1 : (d : ℚ) * (1 - 1 / 2 ^ 53) / ((T : ℚ) * (1 + 1 / 2 ^ 53)) * (1 - 1 / 2 ^ 53) ≤ Q :=
      le_trans (mul_le_mul_of_nonneg_right hABlo (le_of_lt hu1)) hQe.1
    have h2 : (d : ℚ) * (1 - 1 / 2 ^ 53) / ((T : ℚ) * (1 + 1 / 2 ^ 53)) * (1 - 1 / 2 ^ 53) * 100
        * (1 - 1 / 2 ^ 53) ≤ P :=
      le_trans (mul_le_mul_of_nonneg_right (mul_le_mul_of_nonneg_right h1 (by norm_num))
        (le_of_lt hu1)) hPe.1
    refine le_trans ?_ h2
    have hr : (0 : ℚ) ≤ (d : ℚ) / T := by positivity
    have hc : (1 : ℚ) - 1 / 2 ^ 50 ≤ (1 - 1 / 2 ^ 53) ^ 3 / (1 + 1 / 2 ^ 53) := by norm_num
    have heq : (d : ℚ) * (1 - 1 / 2 ^ 53) / ((T : ℚ) * (1 + 1 / 2 ^ 53)) * (1 - 1 / 2 ^ 53) * 100
        * (1 - 1 / 2 ^ 53) = 100 * ((d : ℚ) / T) * ((1 - 1 / 2 ^ 53) ^ 3 / (1 + 1 / 2 ^ 53)) := by
      field_simp
      ring
    rw [heq]
    exact mul_le_mul_of_nonneg_left hc (by positivity)
  · have h1 : Q ≤ (d : ℚ) * (1 + 1 / 2 ^ 53) / ((T : ℚ) * (1 - 1 / 2 ^ 53)) * (1 + 1 / 2 ^ 53) :=
      le_trans hQe.2 (mul_le_mul_of_nonneg_right hABhi (le_of_lt hu2))
    have h2 : P ≤ (d : ℚ) * (1 + 1 / 2 ^ 53) / ((T : ℚ) * (1 - 1 / 2 ^ 53)) * (1 + 1 / 2 ^ 53) * 100
        * (1 + 1 / 2 ^ 53) :=
      le_trans hPe.2 (mul_le_mul_of_nonneg_right (mul_le_mul_of_nonneg_right h1 (by norm_num))
        (le_of_lt hu2))
    refine le_trans h2 ?_
    have hc : (1 + 1 / 2 ^ 53) ^ 3 / (1 - 1 / 2 ^ 53) ≤ (1 : ℚ) + 1 / 2 ^ 50 := by norm_num
    have heq : (d : ℚ) * (1 + 1 / 2 ^ 53) / ((T : ℚ) * (1 - 1 / 2 ^ 53)) * (1 + 1 / 2 ^ 53) * 100
        * (1 + 1 / 2 ^ 53) = 100 * ((d : ℚ) / T) * ((1 + 1 / 2 ^ 53) ^ 3 / (1 - 1 / 2 ^ 53)) := by
      field_simp
      ring
    rw [heq]
    exact mul_le_mul_of_nonneg_left hc (by positivity)

/-- The percentage is the exact integer quotient or one less; for a total
size of at most `2 ^ 43` bytes it is never more. -/
theorem percentOf_bounds (d T : Int) (hd : 0 < d) (hdT : d ≤ T) :
    d * 100 / T - 1 ≤ percentOf d T ∧ (T ≤ 2 ^ 43 → percentOf d T ≤ d * 100 / T) := by
  have hT : 0 < T := by omega
  obtain ⟨_, _, e⟩ := percentOf_chain d T hd hT
  obtain ⟨lo, hi⟩ := percent_value_bounds d T hd hT
  have hx : (0 : ℚ) < d := by exact_mod_cast hd
  have ht : (0 : ℚ) < T := by exact_mod_cast hT
  have hr1 : (d : ℚ) / T ≤ 1 := by
    rw [div_le_one ht]; exact_mod_cast hdT
  have hr0 : (0 : ℚ) ≤ (d : ℚ) / T := by positivity
  have hk : ((d * 100 / T : ℤ) : ℚ) ≤ 100 * ((d : ℚ) / T) := by
    have h1 : (d * 100 / T) * T ≤ d * 100 := Int.ediv_mul_le _ (by omega)
    have h2 : ((d * 100 / T : ℤ) : ℚ) * T ≤ (d : ℚ) * 100 := by exact_mod_cast h1
    rw [show 100 * ((d : ℚ) / T) = (d : ℚ) * 100 / T by ring, le_div_iff₀ ht]
    exact h2
  rw [e]
  constructor
  · apply Int.le_floor.mpr
    push_cast
    have : (100 : ℚ) * ((d : ℚ) / T) * (1 / 2 ^ 50) ≤ 1 := by
      have : (100 : ℚ) * ((d : ℚ) / T) * (1 / 2 ^ 50) ≤ 100 * 1 * (1 / 2 ^ 50) := by
        apply mul_le_mul_of_nonneg_right _ (by positivity)
        exact mul_le_mul_of_nonneg_left hr1 (by norm_num)
      refine le_trans this (by norm_num)
    linarith
  · intro hT43
    have hlt : d * 100 < (d * 100 / T + 1) * T := Int.lt_ediv_add_one_mul_self _ hT
    have h1 : d * 100 + 1 ≤ (d * 100 / T + 1) * T := by omega
    have h2 : (d : ℚ) * 100 + 1 ≤ (((d * 100 / T : ℤ) : ℚ) + 1) * T := by exact_mod_cast h1
    have h3 : 100 * ((d : ℚ) / T) ≤ ((d * 100 / T : ℤ) : ℚ) + 1 - 1 / T := by
      rw [show 100 * ((d : ℚ) / T) = (d : ℚ) * 100 / T by ring, div_le_iff₀ ht]
      have : (((d * 100 / T : ℤ) : ℚ) + 1 - 1 / T) * T = (((d * 100 / T : ℤ) : ℚ) + 1) * T - 1 := by
        field_simp
      rw [this]; linarith
    have hTq : (T : ℚ) ≤ 2 ^ 43 := by exact_mod_cast hT43
    have h4 : (100 : ℚ) * ((d : ℚ) / T) * (1 / 2 ^ 50) < 1 / T := by
      have : (100 : ℚ) * ((d : ℚ) / T) * (1 / 2 ^ 50) ≤ 100 * 1 * (1 / 2 ^ 50) := by
        apply mul_le_mul_of_nonneg_right _ (by positivity)
        exact mul_le_mul_of_nonneg_left hr1 (by norm_num)
      have h5 : (1 : ℚ) / 2 ^ 43 ≤ 1 / T := one_div_le_one_div_of_le ht hTq
      have h6 : (100 : ℚ) * 1 * (1 / 2 ^ 50) < 1 / 2 ^ 43 := by norm_num
      linarith
    have : ⌊(float64.mul (float64.div (ofInt d) (ofInt T)) (ofInt 100)).val⌋ < d * 100 / T + 1 := by
      apply Int.floor_lt.mpr
      push_cast
      linarith
    omega

theorem hextable_getD_lower (k : Nat) :
    (hex.hextable.getD k '0').toNat < 128 ∧ (hex.hextable.getD k '0').toLower = hex.hextable.getD k '0' := by
  by_cases hk : k < 16
  · interval_cases k <;> decide
  · rw [List.getD_eq_default _ _ (by simpa [hex.hextable] using hk)]
    decide

theorem encode_ascii (src : List UInt8) :
    (hex.encode src).all (fun c => decide (c.toNat < 128)) = true := by
  induction src with
  | nil => rfl
  | cons v rest ih =>
    simp only [hex.encode, List.all_cons, ih, Bool.and_true, Bool.and_eq_true, decide_eq_true_eq]
    exact ⟨(hextable_getD_lower _).1, (hextable_getD_lower _).1⟩

theorem encode_lower (src : List UInt8) :
    (hex.encode src).map Char.toLower = hex.encode src := by
  induction src with
  | nil => rfl
  | cons v rest ih =>
    simp only [hex.encode, List.map_cons, ih, (hextable_getD_lower _).2]

/-- The output of `hex.EncodeToString` is its own lowercase form. -/
theorem ToLower_EncodeToString (unicodeToLower : Char → Char) (src : List UInt8) :
    strings.ToLower unicodeToLower (hex.EncodeToString src) = hex.EncodeToString src := by
  simp [strings.ToLower, hex.EncodeToString, encode_ascii, encode_lower]

/-- C4: for a file that can be opened and read, with contents `c`,
`ValidateSHA256` returns nil exactly when the lowercase hexadecimal encoding
of the SHA-256 digest of `c` equals the expected string compared
case-insensitively; the digest function and the Unicode case table are
arbitrary. -/
theorem ValidateSHA256_nil_iff (sha256 : List UInt8 → List UInt8)
    (unicodeToLower : Char → Char) (fs : os.FS) (path expected : String) (c : List UInt8)
    (hopen : os.Open fs path = .ok { data := c, readErr := none }) :
    ValidateSHA256 sha256 unicodeToLower fs path expected = none ↔
      strings.EqualIgnoringCase unicodeToLower (hex.EncodeToString (sha256 c)) expected := by
  simp [ValidateSHA256, hopen, os.Handle.readAll, strings.EqualIgnoringCase,
    ToLower_EncodeToString]

theorem int64_id (x : Int) (h0 : -2 ^ 63 ≤ x) (h1 : x < 2 ^ 63) : int64 x = x := by
  unfold int64; omega

theorem percents_append (a b : List Event) : percents (a ++ b) = percents a ++ percents b := by
  simp [percents, List.filterMap_append]

theorem byteCounts_append (a b : List Event) :
    byteCounts (a ++ b) = byteCounts a ++ byteCounts b := by
  simp [byteCounts, List.filterMap_append]

theorem total_cons (r : http.Read) (rs : List http.Read) :
    total (r :: rs) = (r.data.length : Int) + total rs := by
  simp [total]

theorem total_nonneg (rs : List http.Read) : 0 ≤ total rs := by
  unfold total; exact Nat.cast_nonneg _

/-- The report of a known total size keeps the invariant once `downloaded`
is positive. -/
theorem report_known (T : Int) (st : LoopState) (hT : 0 < T) (hd : 0 < st.downloaded)
    (hpw : List.Pairwise (fun a b => a ≤ b) (percents st.out))
    (hle : ∀ q ∈ percents st.out, q ≤ st.lastPercent)
    (hlast : st.lastPercent = (percents st.out).getLastD 0)
    (hfut : st.lastPercent ≤ percentOf st.downloaded T) :
    KnownInv T (report T st) ∧ (report T st).downloaded = st.downloaded ∧
    (report T st).file = st.file ∧
    (report T st).lastPercent = percentOf st.downloaded T ∧
    (report T st).out =
      if percentOf st.downloaded T ≠ (percents st.out).getLastD 0 then
        st.out ++ [Event.progress (percentOf st.downloaded T) st.downloaded T]
      else st.out := by
  unfold report
  simp only [gt_iff_lt, hT, if_true]
  rw [← hlast]
  by_cases hne : percentOf st.downloaded T ≠ st.lastPercent
  · rw [if_pos hne, if_pos hne]
    refine ⟨⟨le_of_lt hd, ?_, ?_, ?_, fun _ => rfl, fun h0 => ?_⟩, rfl, rfl, rfl, rfl⟩
    · show List.Pairwise _ (percents (st.out ++ _))
      rw [percents_append, List.pairwise_append]
      refine ⟨hpw, by simp [percents], ?_⟩
      intro a ha b hb
      simp only [percents, List.filterMap_cons, List.filterMap_nil, List.mem_singleton] at hb
      subst hb
      exact le_trans (hle a ha) hfut
    · intro q hq
      change q ∈ percents (st.out ++ _) at hq
      rw [percents_append] at hq
      rcases List.mem_append.mp hq with h | h
      · exact le_trans (hle q h) hfut
      · simp only [percents, List.filterMap_cons, List.filterMap_nil, List.mem_singleton] at h
        exact le_of_eq h
    · show percentOf st.downloaded T = (percents (st.out ++ _)).getLastD 0
      rw [percents_append]
      simp [percents]
    · have : st.downloaded = 0 := h0
      omega
  · have heq : percentOf st.downloaded T = st.lastPercent := not_not.mp hne
    rw [if_neg hne, if_neg hne]
    exact ⟨⟨le_of_lt hd, hpw, hle, hlast, fun _ => heq.symm, fun h0 => by omega⟩, rfl, rfl,
      heq.symm, rfl⟩

/-- One chunk of a download of known total size. -/
theorem chunk_known (T : Int) (limit : Option Nat) (st : LoopState) (p : List UInt8)
    (hT : 0 < T) (hinv : KnownInv T st) (hp : p ≠ [])
    (hrange : st.downloaded + (p.length : Int) < 2 ^ 63) :
    (∃ st1 err, chunk T limit st p = .error (st1, err) ∧ KnownInv T st1 ∧
      (os.Write limit st.file p).2 ≠ none) ∨
    (∃ st1, chunk T limit st p = .ok st1 ∧ KnownInv T st1 ∧
      (os.Write limit st.file p).2 = none ∧
      st1.downloaded = st.downloaded + (p.length : Int) ∧
      st1.file = (os.Write limit st.file p).1 ∧
      st1.lastPercent = percentOf (st.downloaded + (p.length : Int)) T ∧
      st1.out =
        if percentOf (st.downloaded + (p.length : Int)) T ≠ (percents st.out).getLastD 0 then
          st.out ++ [Event.progress (percentOf (st.downloaded + (p.length : Int)) T)
            (st.downloaded + (p.length : Int)) T]
        else st.out) := by
  obtain ⟨h0, hpw, hle, hlast, hpos, hzero⟩ := hinv
  have hlen : 0 < (p.length : Int) := by
    have : 0 < p.length := List.length_pos.mpr hp
    exact_mod_cast this
  cases hw : (os.Write limit st.file p).2 with
  | some e =>
    left
    exact ⟨{ st with file := (os.Write limit st.file p).1 },
      GoError.wrapf "error writing to file: %w" [] e, by simp only [chunk, hw],
      ⟨h0, hpw, hle, hlast, hpos, hzero⟩, by simp⟩
  | none =>
    right
    have hid : int64 (st.downloaded + (p.length : Int)) = st.downloaded + (p.length : Int) :=
      int64_id _ (by omega) hrange
    have hfut : st.lastPercent ≤ percentOf (st.downloaded + (p.length : Int)) T := by
      rcases eq_or_lt_of_le h0 with hz | hz
      · rw [hzero hz.symm]
        exact percentOf_nonneg _ _ (by omega) hT
      · rw [hpos hz]
        exact percentOf_mono _ _ _ hz (by omega) hT
    obtain ⟨r1, r2, r3, r4, r5⟩ := report_known T
      { st with file := (os.Write limit st.file p).1,
                downloaded := st.downloaded + (p.length : Int) }
      hT (by simp only; omega) hpw hle hlast hfut
    exact ⟨_, by simp only [chunk, hw, hid], r1, rfl, r2, r3, r4, r5⟩

/-- The loop keeps the invariant of a known total size on every exit. -/
theorem loop_known_inv (T : Int) (limit : Option Nat) (hT : 0 < T) (rs : List http.Read) :
    ∀ st, KnownInv T st → st.downloaded + total rs < 2 ^ 63 →
      KnownInv T (loop T limit rs st).1 := by
  induction rs with
  | nil => intro st h _; simpa [loop] using h
  | cons r rs ih =>
    intro st hinv hrange
    rw [total_cons] at hrange
    have htn := total_nonneg rs
    unfold loop
    by_cases hlen : r.data.length > 0
    · simp only [hlen, if_true]
      have hp : r.data ≠ [] := List.length_pos.mp hlen
      rcases chunk_known T limit st r.data hT hinv hp (by omega) with
        ⟨st1, err, hc, hi, _⟩ | ⟨st1, hc, hi, _, hd, _⟩
      · simp only [hc]; exact hi
      · simp only [hc]
        cases hre : r.err with
        | none => simp only; exact ih st1 hi (by omega)
        | some e =>
          simp only
          split_ifs <;> exact hi
    · simp only [hlen, if_false]
      have hz : (r.data.length : Int) = 0 := by omega
      cases hre : r.err with
      | none => simp only; exact ih st hinv (by omega)
      | some e =>
        simp only
        split_ifs <;> exact hinv


theorem report_downloaded (cl : Int) (st : LoopState) :
    (report cl st).downloaded = st.downloaded ∧ (report cl st).file = st.file := by
  unfold report
  dsimp only
  split_ifs <;> exact ⟨rfl, rfl⟩

theorem chunk_ok_form (cl : Int) (limit : Option Nat) (st : LoopState) (p : List UInt8)
    (hw : (os.Write limit st.file p).2 = none) :
    chunk cl limit st p = .ok (report cl
      { st with file := (os.Write limit st.file p).1,
                downloaded := int64 (st.downloaded + (p.length : Int)) }) := by
  simp only [chunk, hw]

theorem chunk_error_form (cl : Int) (limit : Option Nat) (st : LoopState) (p : List UInt8)
    (e : GoError) (hw : (os.Write limit st.file p).2 = some e) :
    chunk cl limit st p = .error ({ st with file := (os.Write limit st.file p).1 },
      GoError.wrapf "error writing to file: %w" [] e) := by
  simp only [chunk, hw]

theorem Write_ok (limit : Option Nat) (file p : List UInt8)
    (h : ∀ l, limit = some l → file.length + p.length ≤ l) :
    os.Write limit file p = (file ++ p, none) := by
  unfold os.Write
  cases limit with
  | none => rfl
  | some l => simp [h l rfl]

/-- The byte count stays between zero and the bytes delivered. -/
theorem loop_downloaded_le (cl : Int) (limit : Option Nat) (rs : List http.Read) :
    ∀ st, 0 ≤ st.downloaded → st.downloaded + total rs < 2 ^ 63 →
      0 ≤ (loop cl limit rs st).1.downloaded ∧
      (loop cl limit rs st).1.downloaded ≤ st.downloaded + total rs := by
  induction rs with
  | nil => intro st h0 _; simp [loop, total, h0]
  | cons r rs ih =>
    intro st h0 hrange
    rw [total_cons] at hrange ⊢
    have htn := total_nonneg rs
    unfold loop
    by_cases hlen : r.data.length > 0
    · simp only [hlen, if_true]
      have hl : 0 < (r.data.length : Int) := by exact_mod_cast hlen
      cases hw : (os.Write limit st.file r.data).2 with
      | some e =>
        rw [chunk_error_form cl limit st r.data e hw]
        simp only
        omega
      | none =>
        rw [chunk_ok_form cl limit st r.data hw,
          int64_id (st.downloaded + (r.data.length : Int)) (by omega) (by omega)]
        have hd := (report_downloaded cl
          { st with file := (os.Write limit st.file r.data).1,
                    downloaded := st.downloaded + (r.data.length : Int) }).1
        simp only at hd
        cases hre : r.err with
        | none =>
          simp only
          have := ih _ (by rw [hd]; omega) (by rw [hd]; omega)
          rw [hd] at this
          omega
        | some e =>
          simp only
          split_ifs <;> (simp only; rw [hd]; omega)
    · simp only [hlen, if_false]
      have hz : (r.data.length : Int) = 0 := by omega
      cases hre : r.err with
      | none =>
        simp only
        have := ih st h0 (by omega)
        omega
      | some e =>
        simp only
        split_ifs <;> (simp only; omega)

/-- A body of chunks followed by the end of the stream, with room for every
write: the loop is left by `break`, every byte is counted and written. -/
theorem loop_bodyOf (cl : Int) (limit : Option Nat) (chunks : List (List UInt8)) :
    ∀ st, 0 ≤ st.downloaded →
      st.downloaded + ((chunks.flatten.length : Nat) : Int) < 2 ^ 63 →
      (∀ l, limit = some l → st.file.length + chunks.flatten.length ≤ l) →
      (loop cl limit (bodyOf chunks) st).2 = none ∧
      (loop cl limit (bodyOf chunks) st).1.downloaded
        = st.downloaded + ((chunks.flatten.length : Nat) : Int) ∧
      (loop cl limit (bodyOf chunks) st).1.file = st.file ++ chunks.flatten := by
  induction chunks with
  | nil =>
    intro st h0 _ _
    simp [bodyOf, loop]
  | cons c cs ih =>
    intro st h0 hrange hlim
    simp only [List.flatten_cons, List.length_append, Nat.cast_add] at hrange hlim ⊢
    have hbody : bodyOf (c :: cs) = { data := c, err := none } :: bodyOf cs := by
      simp [bodyOf]
    rw [hbody]
    unfold loop
    by_cases hlen : c.length > 0
    · simp only [hlen, if_true]
      have hw := Write_ok limit st.file c (fun l hl => by have := hlim l hl; omega)
      have hw2 : (os.Write limit st.file c).2 = none := by rw [hw]
      rw [chunk_ok_form cl limit st c hw2,
        int64_id (st.downloaded + (c.length : Int)) (by omega) (by omega), hw]
      simp only
      obtain ⟨hd, hf⟩ := report_downloaded cl
        { st with file := st.file ++ c,
                  downloaded := st.downloaded + (c.length : Int) }
      simp only at hd hf
      obtain ⟨i1, i2, i3⟩ := ih _ (by rw [hd]; omega) (by rw [hd]; omega)
        (fun l hl => by
          have := hlim l hl
          rw [hf]; simp only [List.length_append]; omega)
      refine ⟨i1, ?_, ?_⟩
      · rw [i2, hd]; ring
      · rw [i3, hf, List.append_assoc]
    · simp only [hlen, if_false]
      have hz : c = [] := by
        cases c with
        | nil => rfl
        | cons a l => simp at hlen
      subst hz
      simp only [List.length_nil, Nat.cast_zero, zero_add, Nat.zero_add, List.nil_append] at *
      exact ih st h0 hrange hlim

theorem total_bodyOf (chunks : List (List UInt8)) :
    total (bodyOf chunks) = ((chunks.flatten.length : Nat) : Int) := by
  simp [total, bodyOf, List.length_flatten, Function.comp_def]

theorem knownInv_init (T : Int) : KnownInv T LoopState.init := by
  simp [KnownInv, LoopState.init, percents]

theorem percents_newline (out : List Event) : percents (out ++ [Event.newline]) = percents out := by
  simp [percents, List.filterMap_append]

theorem getLast?_of_getLastD (l : List Int) (h : l.getLastD 0 = 100) : l.getLast? = some 100 := by
  cases l with
  | nil => simp at h
  | cons a t =>
    rw [List.getLastD_cons] at h
    rw [List.getLast?_cons, ← List.getLastD_eq_getLast?, h]

/-- C5: a server declares the total size `T > 0` and its body delivers
chunks whose lengths sum to `T` and then the end of the stream; the
destination can be created and has room.  Then `Download` returns nil, the
percentages it prints never decrease and the last one printed is 100, and the
destination file holds exactly the `T` bytes of the chunks. -/
theorem Download_known_size (DefaultClient : http.Client) (fs : os.FS)
    (client : Option http.Client) (url path status : String) (T : Int)
    (chunks : List (List UInt8)) (hT : 0 < T) (hT63 : T < 2 ^ 63)
    (hsum : (((chunks.map List.length).sum : Nat) : Int) = T)
    (hget : client.getD DefaultClient url
      = .ok { StatusCode := 200, Status := status, ContentLength := T, Body := bodyOf chunks })
    (hcreate : fs.denied path = none)
    (hroom : ∀ l : Nat, fs.limit = some l → T ≤ (l : Int)) :
    (Download DefaultClient fs client url path).err = none ∧
    List.Pairwise (fun a b => a ≤ b) (percents (Download DefaultClient fs client url path).out) ∧
    (percents (Download DefaultClient fs client url path).out).getLast? = some 100 ∧
    ((Download DefaultClient fs client url path).fs.files path).map (fun f => f.data)
      = some chunks.flatten ∧
    ((chunks.flatten.length : Nat) : Int) = T := by
  have hlen : ((chunks.flatten.length : Nat) : Int) = T := by
    rw [List.length_flatten]; exact hsum
  obtain ⟨l1, l2, l3⟩ := loop_bodyOf T fs.limit chunks LoopState.init (by simp [LoopState.init])
    (by simp only [LoopState.init]; omega)
    (fun l hl => by
      have := hroom l hl
      simp only [LoopState.init, List.length_nil]
      omega)
  have hinv := loop_known_inv T fs.limit hT (bodyOf chunks) LoopState.init (knownInv_init T)
    (by rw [total_bodyOf]; simp only [LoopState.init]; omega)
  obtain ⟨_, hpw, _, hlast, hpos, _⟩ := hinv
  have hd : (loop T fs.limit (bodyOf chunks) LoopState.init).1.downloaded = T := by
    rw [l2, hlen]; simp [LoopState.init]
  have h100 : (percents (loop T fs.limit (bodyOf chunks) LoopState.init).1.out).getLastD 0
      = 100 := by
    rw [← hlast, hpos (by rw [hd]; exact hT), hd, percentOf_full T hT]
  have hcr : ∃ fs1, os.Create fs path = .ok fs1 := by
    unfold os.Create
    rw [hcreate]
    cases fs.files path <;> exact ⟨_, rfl⟩
  obtain ⟨fs1, hfs1⟩ := hcr
  have hD : Download DefaultClient fs client url path
      = { err := none,
          fs := fs1.set path
            { data := (loop T fs.limit (bodyOf chunks) LoopState.init).1.file,
              perm := match fs1.files path with
                | none => 0o666
                | some f => f.perm },
          out := (loop T fs.limit (bodyOf chunks) LoopState.init).1.out ++ [Event.newline] } := by
    simp only [Download, hget, hfs1, l1]
    simp
  rw [hD]
  refine ⟨rfl, ?_, ?_, ?_, hlen⟩
  · simp only [percents_newline]; exact hpw
  · simp only [percents_newline]; exact getLast?_of_getLastD _ h100
  · simp only [os.FS.set, if_true, Option.map_some', l3]
    simp [LoopState.init]

/-- C9, as the code has it: after any reads of a body of declared size
`T > 0`, a further chunk that brings the byte count to `d`, with
`0 < d ≤ T`, makes `Download` compute the percentage `percentOf d T`, the
truncated binary64 value of `(d / T) * 100`.  This integer is the exact
quotient `d * 100 / T` or one less, is at most 100, is exactly 100 when
`d = T`, and is never below the exact quotient's predecessor; for
`T ≤ 2 ^ 43` it is never above the exact quotient.  A progress line is
printed after the chunk exactly when this integer differs from the last
percentage printed (0 when none was printed). -/
theorem chunk_percent (T : Int) (limit : Option Nat) (rs : List http.Read)
    (p : List UInt8) (st1 : LoopState) (hT : 0 < T)
    (hrange : total rs + (p.length : Int) < 2 ^ 63) (hp : p ≠ [])
    (hdT : (loop T limit rs LoopState.init).1.downloaded + (p.length : Int) ≤ T)
    (hc : chunk T limit (loop T limit rs LoopState.init).1 p = .ok st1) :
    st1.downloaded = (loop T limit rs LoopState.init).1.downloaded + (p.length : Int) ∧
    st1.lastPercent = percentOf st1.downloaded T ∧
    st1.downloaded * 100 / T - 1 ≤ percentOf st1.downloaded T ∧
    percentOf st1.downloaded T ≤ 100 ∧
    (T ≤ 2 ^ 43 → percentOf st1.downloaded T ≤ st1.downloaded * 100 / T) ∧
    (st1.downloaded = T → percentOf st1.downloaded T = 100) ∧
    st1.out =
      (if percentOf st1.downloaded T
          ≠ (percents (loop T limit rs LoopState.init).1.out).getLastD 0 then
        (loop T limit rs LoopState.init).1.out
          ++ [Event.progress (percentOf st1.downloaded T) st1.downloaded T]
      else (loop T limit rs LoopState.init).1.out) := by
  have hinv := loop_known_inv T limit hT rs LoopState.init (knownInv_init T)
    (by simp only [LoopState.init]; have := total_nonneg rs; omega)
  obtain ⟨b0, b1⟩ := loop_downloaded_le T limit rs LoopState.init (by simp [LoopState.init])
    (by simp only [LoopState.init]; have := total_nonneg rs; omega)
  have hz : LoopState.init.downloaded = 0 := rfl
  rw [hz, zero_add] at b1
  have hlen : 0 < (p.length : Int) := by
    have : 0 < p.length := List.length_pos.mpr hp
    exact_mod_cast this
  rcases chunk_known T limit _ p hT hinv hp (by omega) with
    ⟨s, e, he, _, _⟩ | ⟨s, hs, _, _, hd, _, hl, ho⟩
  · rw [he] at hc; exact Except.noConfusion hc
  · rw [hs] at hc
    have hst : s = st1 := by injection hc
    subst hst
    have hpos : 0 < s.downloaded := by rw [hd]; omega
    have hle : s.downloaded ≤ T := by rw [hd]; exact hdT
    obtain ⟨lo, hi⟩ := percentOf_bounds s.downloaded T hpos hle
    refine ⟨hd, ?_, lo, ?_, hi, ?_, ?_⟩
    · rw [hl, hd]
    · rw [← percentOf_full T hT]
      exact percentOf_mono _ _ _ hpos hle hT
    · intro h; rw [h]; exact percentOf_full T hT
    · rw [ho, hd]

set_option maxRecDepth 100000 in
/-- C9 fails as stated: with 29 of 100 bytes received the code computes 28,
the exact quotient is 29. -/
theorem percentOf_29_of_100 :
    percentOf 29 100 = 28 ∧ (29 * 100 / 100 : Int) = 29 ∧
    chunk 100 none LoopState.init (List.replicate 29 0)
      = .ok { downloaded := 29, lastPercent := 28, lastPrintedBytes := 0,
              file := List.replicate 29 0, out := [Event.progress 28 29 100] } := by
  refine ⟨by decide, by decide, ?_⟩
  rfl

theorem chain_concat {R : Int → Int → Prop} (l : List Int) :
    ∀ (a b : Int), List.Chain R a (l ++ [b]) ↔ List.Chain R a l ∧ R (l.getLastD a) b := by
  induction l with
  | nil => intro a b; simp
  | cons c t ih =>
    intro a b
    simp only [List.cons_append, List.chain_cons, ih, List.getLastD_cons, and_assoc]

/-- The report of an unknown total size after `downloaded` was advanced by
at most one buffer. -/
theorem report_unknown (cl : Int) (st : LoopState) (n : Int) (hcl : cl ≤ 0)
    (h0 : 0 ≤ st.downloaded) (hlast : st.lastPrintedBytes = (byteCounts st.out).getLastD 0)
    (hlo : 0 ≤ st.downloaded - n - st.lastPrintedBytes)
    (hhi : st.downloaded - n - st.lastPrintedBytes < 1048576)
    (hn0 : 0 ≤ n) (hn : n ≤ 32768) (hrange : st.downloaded < 2 ^ 63)
    (hL : 0 ≤ st.lastPrintedBytes)
    (hch : List.Chain Gap 0 (byteCounts st.out)) :
    UnknownInv (report cl st) ∧
    (report cl st).out =
      if st.downloaded - (byteCounts st.out).getLastD 0 ≥ 1048576 then
        st.out ++ [Event.bytes st.downloaded]
      else st.out := by
  have hnot : ¬ cl > 0 := by omega
  have hid : int64 (st.downloaded - st.lastPrintedBytes) = st.downloaded - st.lastPrintedBytes :=
    int64_id _ (by omega) (by omega)
  unfold report
  rw [if_neg hnot, hid, ← hlast]
  norm_num only
  by_cases hge : 1048576 ≤ st.downloaded - st.lastPrintedBytes
  · rw [if_pos hge, if_pos hge]
    refine ⟨⟨h0, ?_, ?_, ?_, ?_⟩, rfl⟩
    · show st.downloaded = (byteCounts (st.out ++ _)).getLastD 0
      rw [byteCounts_append]; simp [byteCounts]
    · show 0 ≤ st.downloaded - st.downloaded
      omega
    · show st.downloaded - st.downloaded < 1048576
      omega
    · show List.Chain Gap 0 (byteCounts (st.out ++ _))
      rw [byteCounts_append]
      have : byteCounts [Event.bytes st.downloaded] = [st.downloaded] := by simp [byteCounts]
      rw [this, chain_concat]
      refine ⟨hch, ?_⟩
      rw [← hlast]
      unfold Gap
      omega
  · rw [if_neg hge, if_neg hge]
    exact ⟨⟨h0, hlast, by omega, by omega, hch⟩, rfl⟩

theorem unknownInv_init : UnknownInv LoopState.init := by
  simp [UnknownInv, LoopState.init, byteCounts]

theorem unknownInv_last_nonneg (st : LoopState) (h : UnknownInv st) :
    0 ≤ st.lastPrintedBytes := by
  obtain ⟨_, hlast, _, _, hch⟩ := h
  rw [hlast]
  generalize byteCounts st.out = l at hch
  have key : ∀ (l : List Int) (a : Int), 0 ≤ a → List.Chain Gap a l → 0 ≤ l.getLastD a := by
    intro l
    induction l with
    | nil => intro a ha _; simpa using ha
    | cons c t ih =>
      intro a ha hc
      rw [List.chain_cons] at hc
      rw [List.getLastD_cons]
      apply ih c _ hc.2
      have := hc.1
      unfold Gap at this
      omega
  exact key l 0 le_rfl hch

/-- One chunk of a download of unknown total size. -/
theorem chunk_unknown (cl : Int) (limit : Option Nat) (st : LoopState) (p : List UInt8)
    (hcl : cl ≤ 0) (hinv : UnknownInv st) (hp : p.length ≤ bufSize)
    (hrange : st.downloaded + (p.length : Int) < 2 ^ 63) :
    (∃ st1 err, chunk cl limit st p = .error (st1, err) ∧ UnknownInv st1 ∧
      st1.downloaded = st.downloaded) ∨
    (∃ st1, chunk cl limit st p = .ok st1 ∧ UnknownInv st1 ∧
      st1.downloaded = st.downloaded + (p.length : Int) ∧
      st1.out =
        if st.downloaded + (p.length : Int) - (byteCounts st.out).getLastD 0 ≥ 1048576 then
          st.out ++ [Event.bytes (st.downloaded + (p.length : Int))]
        else st.out) := by
  have hL := unknownInv_last_nonneg st hinv
  obtain ⟨h0, hlast, hlo, hhi, hch⟩ := hinv
  have hbuf : (p.length : Int) ≤ 32768 := by
    have : p.length ≤ 32768 := by simpa [bufSize] using hp
    exact_mod_cast this
  cases hw : (os.Write limit st.file p).2 with
  | some e =>
    left
    exact ⟨_, _, chunk_error_form cl limit st p e hw, ⟨h0, hlast, hlo, hhi, hch⟩, rfl⟩
  | none =>
    right
    have hid := int64_id (st.downloaded + (p.length : Int)) (by omega) hrange
    obtain ⟨r1, r2⟩ := report_unknown cl
      { st with file := (os.Write limit st.file p).1,
                downloaded := st.downloaded + (p.length : Int) }
      (p.length : Int) hcl (by simp only; omega) hlast (by simp only; omega)
      (by simp only; omega) (by omega) hbuf hrange hL hch
    refine ⟨_, by rw [chunk_ok_form cl limit st p hw, hid], r1, ?_, r2⟩
    exact (report_downloaded cl _).1

/-- The loop keeps the invariant of an unknown total size on every exit. -/
theorem loop_unknown_inv (cl : Int) (limit : Option Nat) (hcl : cl ≤ 0)
    (rs : List http.Read) :
    ∀ st, UnknownInv st → (∀ r ∈ rs, r.data.length ≤ bufSize) →
      st.downloaded + total rs < 2 ^ 63 → UnknownInv (loop cl limit rs st).1 := by
  induction rs with
  | nil => intro st h _ _; simpa [loop] using h
  | cons r rs ih =>
    intro st hinv hbuf hrange
    rw [total_cons] at hrange
    have htn := total_nonneg rs
    have hr : r.data.length ≤ bufSize := hbuf r (by simp)
    have hrs : ∀ x ∈ rs, x.data.length ≤ bufSize := fun x hx => hbuf x (by simp [hx])
    unfold loop
    by_cases hlen : r.data.length > 0
    · simp only [hlen, if_true]
      rcases chunk_unknown cl limit st r.data hcl hinv hr (by omega) with
        ⟨st1, err, hc, hi, _⟩ | ⟨st1, hc, hi, hd, _⟩
      · simp only [hc]; exact hi
      · simp only [hc]
        cases hre : r.err with
        | none => simp only; exact ih st1 hi hrs (by omega)
        | some e =>
          simp only
          split_ifs <;> exact hi
    · simp only [hlen, if_false]
      have hz : (r.data.length : Int) = 0 := by omega
      cases hre : r.err with
      | none => simp only; exact ih st hinv hrs (by omega)
      | some e =>
        simp only
        split_ifs <;> exact hinv

theorem sizes_cons (r : http.Read) (rs : List http.Read) :
    sizes (r :: rs) = r.data.length :: sizes rs := rfl

theorem payload_cons (r : http.Read) (rs : List http.Read) :
    payload (r :: rs) = r.data ++ payload rs := by
  simp [payload]

theorem total_eq_sizes (rs : List http.Read) : total rs = (((sizes rs).sum : Nat) : Int) := rfl

theorem total_eq_payload (rs : List http.Read) : total rs = ((payload rs).length : Int) := by
  induction rs with
  | nil => rfl
  | cons r rs ih => rw [total_cons, payload_cons, List.length_append, ih]; push_cast; rfl

theorem byteCounts_map_bytes (l : List Int) : byteCounts (l.map Event.bytes) = l := by
  induction l with
  | nil => rfl
  | cons a t ih =>
    simp only [byteCounts, List.map_cons, List.filterMap_cons] at ih ⊢
    rw [ih]

/-- One chunk of a download of unknown total size whose write succeeds. -/
theorem chunk_unknown_ok (cl : Int) (limit : Option Nat) (st : LoopState) (p : List UInt8)
    (hcl : cl ≤ 0) (hinv : UnknownInv st) (hp : p.length ≤ bufSize)
    (hrange : st.downloaded + (p.length : Int) < 2 ^ 63)
    (hroom : ∀ l, limit = some l → st.file.length + p.length ≤ l) :
    ∃ st1, chunk cl limit st p = .ok st1 ∧ UnknownInv st1 ∧
      st1.downloaded = st.downloaded + (p.length : Int) ∧
      st1.file = st.file ++ p ∧
      st1.out = st.out ++ (if st.downloaded + (p.length : Int) - st.lastPrintedBytes ≥ 1048576
        then [Event.bytes (st.downloaded + (p.length : Int))] else []) ∧
      st1.lastPrintedBytes = (if st.downloaded + (p.length : Int) - st.lastPrintedBytes ≥ 1048576
        then st.downloaded + (p.length : Int) else st.lastPrintedBytes) := by
  have hw := Write_ok limit st.file p hroom
  have hw2 : (os.Write limit st.file p).2 = none := by rw [hw]
  rcases chunk_unknown cl limit st p hcl hinv hp hrange with
    ⟨s, e, he, _, _⟩ | ⟨s, hs, hi, hd, ho⟩
  · rw [chunk_ok_form cl limit st p hw2] at he
    exact Except.noConfusion he
  · refine ⟨s, hs, hi, hd, ?_, ?_, ?_⟩
    · have h2 := hs
      rw [chunk_ok_form cl limit st p hw2] at h2
      have h3 : s = _ := (Except.ok.inj h2).symm
      rw [h3, (report_downloaded cl _).2, hw]
    · rw [ho, ← hinv.2.1]
      split_ifs <;> simp
    · rw [hi.2.1, ho, ← hinv.2.1]
      split_ifs
      · rw [byteCounts_append]; simp [byteCounts]
      · exact hinv.2.1.symm

theorem loop_cons_none (cl : Int) (limit : Option Nat) (r : http.Read) (rs : List http.Read)
    (st s : LoopState)
    (hstep : (if r.data.length > 0 then chunk cl limit st r.data else .ok st) = .ok s)
    (hre : r.err = none) : loop cl limit (r :: rs) st = loop cl limit rs s := by
  rw [loop, hstep, hre]

theorem loop_cons_some (cl : Int) (limit : Option Nat) (r : http.Read) (rs : List http.Read)
    (st s : LoopState) (e : GoError)
    (hstep : (if r.data.length > 0 then chunk cl limit st r.data else .ok st) = .ok s)
    (hre : r.err = some e) : (loop cl limit (r :: rs) st).1 = s := by
  rw [loop, hstep, hre]
  simp only
  split_ifs <;> rfl

/-- The loop over reads of which only the last may return an error, with room
for every write: the bytes counted, the bytes written and the lines printed. -/
theorem loop_unknown_run (cl : Int) (limit : Option Nat) (hcl : cl ≤ 0)
    (rs : List http.Read) :
    ∀ st, UnknownInv st → (∀ r ∈ rs, r.data.length ≤ bufSize) →
      st.downloaded + total rs < 2 ^ 63 →
      (∀ r ∈ rs.dropLast, r.err = none) →
      (∀ l, limit = some l → st.file.length + (payload rs).length ≤ l) →
      (loop cl limit rs st).1.downloaded = st.downloaded + total rs ∧
      (loop cl limit rs st).1.file = st.file ++ payload rs ∧
      (loop cl limit rs st).1.out = st.out ++
        (expectedCounts st.downloaded st.lastPrintedBytes (sizes rs)).map Event.bytes := by
  induction rs with
  | nil =>
    intro st _ _ _ _ _
    simp [loop, total, payload, sizes, expectedCounts]
  | cons r rs ih =>
    intro st hinv hbuf hrange hgo hroom
    rw [total_cons] at hrange ⊢
    rw [payload_cons] at hroom ⊢
    rw [sizes_cons]
    have htn := total_nonneg rs
    have hr : r.data.length ≤ bufSize := hbuf r (by simp)
    have hrs : ∀ x ∈ rs, x.data.length ≤ bufSize := fun x hx => hbuf x (by simp [hx])
    -- the state `s` after the read `r`
    have step : ∃ s, (if r.data.length > 0 then chunk cl limit st r.data else .ok st) = .ok s ∧
        UnknownInv s ∧ s.downloaded = st.downloaded + (r.data.length : Int) ∧
        s.file = st.file ++ r.data ∧
        s.out ++ (expectedCounts s.downloaded s.lastPrintedBytes (sizes rs)).map Event.bytes
          = st.out ++ (expectedCounts st.downloaded st.lastPrintedBytes
              (r.data.length :: sizes rs)).map Event.bytes := by
      by_cases hlen : r.data.length > 0
      · obtain ⟨s, hc, hi, hd, hf, ho, hl⟩ := chunk_unknown_ok cl limit st r.data hcl hinv hr
          (by omega) (by
            intro l hl
            have := hroom l hl
            simp only [List.length_append] at this
            omega)
        refine ⟨s, by rw [if_pos hlen, hc], hi, hd, hf, ?_⟩
        rw [ho, hl, hd]
        conv_rhs => unfold expectedCounts
        by_cases hge : st.downloaded + (r.data.length : Int) - st.lastPrintedBytes ≥ 1048576
        · simp only [if_pos hge, List.map_cons, List.append_assoc, List.singleton_append]
        · simp only [if_neg hge, List.append_nil]
      · have hz : r.data.length = 0 := by omega
        have hnil : r.data = [] := List.length_eq_zero.mp hz
        refine ⟨st, by rw [if_neg hlen], hinv, by rw [hz]; simp, by rw [hnil]; simp, ?_⟩
        conv_rhs => unfold expectedCounts
        have hlt : ¬ st.downloaded + ((r.data.length : Nat) : Int) - st.lastPrintedBytes
            ≥ 1048576 := by
          have := hinv.2.2.2.1
          rw [hz]
          push_cast
          omega
        rw [if_neg hlt, hz]
        simp
    obtain ⟨s, hstep, hs, hd, hf, hout⟩ := step
    rw [← hout]
    -- the reads that follow `r`
    cases rs with
    | nil =>
      have hfin : (loop cl limit [r] st).1 = s := by
        cases hre : r.err with
        | none => rw [loop_cons_none cl limit r [] st s hstep hre]; rfl
        | some e => exact loop_cons_some cl limit r [] st s e hstep hre
      rw [hfin]
      simp [total, payload, sizes, expectedCounts, hd, hf]
    | cons x xs =>
      have hnone : r.err = none := hgo r (by simp [List.dropLast])
      rw [loop_cons_none cl limit r (x :: xs) st s hstep hnone]
      obtain ⟨a1, a2, a3⟩ := ih s hs hrs (by rw [hd]; omega)
        (by
          intro y hy
          exact hgo y (by simp only [List.dropLast_cons₂, List.mem_cons]; right; exact hy))
        (by
          intro l hl
          have := hroom l hl
          rw [hf]
          simp only [List.length_append] at this ⊢
          omega)
      exact ⟨by rw [a1, hd]; ring, by rw [a2, hf, List.append_assoc], a3⟩

/-- The counts the rule prescribes when one more chunk follows. -/
theorem expectedCounts_concat (ns : List Nat) (n : Nat) :
    ∀ received lastPrinted : Int,
      expectedCounts received lastPrinted (ns ++ [n]) =
        expectedCounts received lastPrinted ns ++
          (if received + ((ns.sum : Nat) : Int) + (n : Int)
              - (expectedCounts received lastPrinted ns).getLastD lastPrinted ≥ 1048576
            then [received + ((ns.sum : Nat) : Int) + (n : Int)] else []) := by
  induction ns with
  | nil =>
    intro D L
    simp [expectedCounts]
  | cons m ms ih =>
    intro D L
    simp only [List.cons_append, List.sum_cons, Nat.cast_add]
    unfold expectedCounts
    by_cases hge : D + (m : Int) - L ≥ 1048576
    · simp only [if_pos hge, List.cons_append, List.getLastD_cons]
      rw [ih]
      simp only [add_assoc]
    · simp only [if_neg hge]
      rw [ih]
      simp only [add_assoc]

/-- C10: the total size is unknown (`contentLength ≤ 0`), every read delivers
at most one buffer of 32 KiB, no read before the last returns an error and
every write succeeds.  When the loop is left, `downloaded` is the number of
bytes the reads delivered and the file holds those bytes; the lines printed
are exactly the byte counts of the rule of the specification (a count after a
chunk exactly when the bytes transferred since the last count printed,
initially 0, are at least 1048576); `lastPrintedBytes` is the last count
printed, `downloaded - lastPrintedBytes` is in `[0, 1048576)`, consecutive
counts printed, from 0, differ by at least 1048576 and by less than
1048576 + 32768, and a count was printed once 1048576 bytes were delivered.
One more read `r` adds the line of the new byte count exactly when that
count is at least 1048576 above the last count printed, and no line
otherwise. -/
theorem loop_unknown_size (cl : Int) (limit : Option Nat) (rs : List http.Read)
    (hcl : cl ≤ 0) (hbuf : ∀ r ∈ rs, r.data.length ≤ bufSize)
    (hrange : total rs < 2 ^ 63)
    (hgo : ∀ r ∈ rs.dropLast, r.err = none)
    (hroom : ∀ l : Nat, limit = some l → total rs ≤ (l : Int)) :
    (loop cl limit rs LoopState.init).1.downloaded = total rs ∧
    (loop cl limit rs LoopState.init).1.file = payload rs ∧
    (loop cl limit rs LoopState.init).1.out
      = (expectedCounts 0 0 (sizes rs)).map Event.bytes ∧
    (loop cl limit rs LoopState.init).1.lastPrintedBytes
      = (byteCounts (loop cl limit rs LoopState.init).1.out).getLastD 0 ∧
    0 ≤ (loop cl limit rs LoopState.init).1.downloaded
        - (loop cl limit rs LoopState.init).1.lastPrintedBytes ∧
    (loop cl limit rs LoopState.init).1.downloaded
        - (loop cl limit rs LoopState.init).1.lastPrintedBytes < 1048576 ∧
    List.Chain Gap 0 (byteCounts (loop cl limit rs LoopState.init).1.out) ∧
    (1048576 ≤ total rs → byteCounts (loop cl limit rs LoopState.init).1.out ≠ []) ∧
    ∀ r : http.Read, (∀ x ∈ rs, x.err = none) → r.data.length ≤ bufSize →
      total rs + (r.data.length : Int) < 2 ^ 63 →
      (∀ l : Nat, limit = some l → total rs + (r.data.length : Int) ≤ (l : Int)) →
      (loop cl limit (rs ++ [r]) LoopState.init).1.out =
        (loop cl limit rs LoopState.init).1.out ++
          (if total rs + (r.data.length : Int)
              - (byteCounts (loop cl limit rs LoopState.init).1.out).getLastD 0 ≥ 1048576
            then [Event.bytes (total rs + (r.data.length : Int))] else []) := by
  have hz : LoopState.init.downloaded = 0 := rfl
  have hinv := loop_unknown_inv cl limit hcl rs LoopState.init unknownInv_init hbuf
    (by rw [hz]; omega)
  obtain ⟨r1, r2, r3⟩ := loop_unknown_run cl limit hcl rs LoopState.init unknownInv_init hbuf
    (by rw [hz]; omega) hgo
    (by
      intro l hl
      have h := hroom l hl
      rw [total_eq_payload] at h
      have hf : LoopState.init.file.length = 0 := rfl
      rw [hf]
      omega)
  have hd : (loop cl limit rs LoopState.init).1.downloaded = total rs := by
    rw [r1, hz, zero_add]
  have ho : (loop cl limit rs LoopState.init).1.out
      = (expectedCounts 0 0 (sizes rs)).map Event.bytes := by
    rw [r3]; rfl
  refine ⟨hd, by rw [r2]; rfl, ho, hinv.2.1, hinv.2.2.1, hinv.2.2.2.1, hinv.2.2.2.2, ?_, ?_⟩
  · intro h1 hnil
    have h2 := hinv.2.2.2.1
    rw [hinv.2.1, hnil, hd] at h2
    simp only [List.getLastD_nil] at h2
    omega
  · intro r hall hr hrange1 hroom1
    have htot : total (rs ++ [r]) = total rs + (r.data.length : Int) := by
      simp [total]
    obtain ⟨_, _, q3⟩ := loop_unknown_run cl limit hcl (rs ++ [r]) LoopState.init
      unknownInv_init
      (by
        intro x hx
        rcases List.mem_append.mp hx with h | h
        · exact hbuf x h
        · rw [List.mem_singleton.mp h]; exact hr)
      (by rw [hz, htot]; omega)
      (by rw [List.dropLast_concat]; exact hall)
      (by
        intro l hl
        have h := hroom1 l hl
        rw [← htot, total_eq_payload] at h
        have hf : LoopState.init.file.length = 0 := rfl
        rw [hf]
        omega)
    have hs : sizes (rs ++ [r]) = sizes rs ++ [r.data.length] := by simp [sizes]
    have q4 : (loop cl limit (rs ++ [r]) LoopState.init).1.out
        = (expectedCounts 0 0 (sizes rs ++ [r.data.length])).map Event.bytes := by
      rw [q3, hs]; rfl
    rw [q4, ho, byteCounts_map_bytes, expectedCounts_concat, List.map_append, ← total_eq_sizes,
      zero_add]
    congr 1
    split_ifs <;> rfl

/-- C4 at a concrete file: the digest function is the identity on two bytes,
the expected string is the upper-case form of their encoding. -/
theorem ValidateSHA256_nil_iff_witness :
    ValidateSHA256 (fun c => c) Char.toLower
      (os.FS.empty.set "game.zip" { data := [0xab, 0x01], perm := 0o644 })
      "game.zip" "AB01" = none :=
  (ValidateSHA256_nil_iff (fun c => c) Char.toLower
    (os.FS.empty.set "game.zip" { data := [0xab, 0x01], perm := 0o644 })
    "game.zip" "AB01" [0xab, 0x01] rfl).mpr
    (show strings.ToLower _ _ = strings.ToLower _ _ from by decide)

/-- C5 at a concrete download: three bytes declared, delivered as two
chunks. -/
theorem Download_known_size_witness :
    (Download threeByteServer os.FS.empty none "https://host/file" "game.zip").err = none ∧
    (percents (Download threeByteServer os.FS.empty none "https://host/file"
      "game.zip").out).getLast? = some 100 :=
  have h := Download_known_size threeByteServer os.FS.empty none "https://host/file"
    "game.zip" "200 OK" 3 [[1, 2], [3]] (by decide) (by decide) (by decide) rfl rfl
    (fun l hl => Option.noConfusion hl)
  ⟨h.1, h.2.2.1⟩

set_option maxRecDepth 100000 in
/-- C9 at a concrete chunk: the first 29 bytes of 100. -/
theorem chunk_percent_witness :
    (29 : Int) * 100 / 100 - 1 ≤ percentOf 29 100 ∧ percentOf 29 100 ≤ 29 * 100 / 100 :=
  have h := chunk_percent 100 none [] (List.replicate 29 0)
    { downloaded := 29, lastPercent := 28, lastPrintedBytes := 0,
      file := List.replicate 29 0, out := [Event.progress 28 29 100] }
    (by decide) (by decide) (by decide) (by decide) rfl
  ⟨h.2.2.1, h.2.2.2.2.1 (by decide)⟩

theorem fullBuffers_mem (r : http.Read) (h : r ∈ fullBuffers) :
    r = { data := List.replicate 32768 0, err := none } :=
  List.eq_of_mem_replicate h

theorem sizes_fullBuffers : sizes fullBuffers = List.replicate 33 32768 := by
  unfold sizes fullBuffers
  rw [List.map_replicate, List.length_replicate]

theorem total_fullBuffers : total fullBuffers = 1081344 := by
  rw [total_eq_sizes, sizes_fullBuffers, List.sum_replicate]
  rfl

/-- C10 at a concrete body: 33 full buffers of 32 KiB, size undeclared.  All
1081344 bytes are counted and one line is printed, the count 1048576 reached
with the 32nd buffer. -/
theorem loop_unknown_size_witness :
    (loop (-1) none fullBuffers LoopState.init).1.downloaded = 1081344 ∧
    (loop (-1) none fullBuffers LoopState.init).1.out = [Event.bytes 1048576] ∧
    (loop (-1) none fullBuffers LoopState.init).1.lastPrintedBytes = 1048576 :=
  have h := loop_unknown_size (-1) none fullBuffers (by decide)
    (fun r hr => by rw [fullBuffers_mem r hr, List.length_replicate]; decide)
    (by rw [total_fullBuffers]; decide)
    (fun r hr => by rw [fullBuffers_mem r (List.mem_of_mem_dropLast hr)])
    (fun l hl => Option.noConfusion hl)
  have hout : (loop (-1) none fullBuffers LoopState.init).1.out = [Event.bytes 1048576] := by
    rw [h.2.2.1, sizes_fullBuffers]
    decide
  ⟨by rw [h.1, total_fullBuffers], hout, by rw [h.2.2.2.1, hout]; decide⟩

end ioutil

namespace main

/-- C8: in a run of `download` in which the manifest, the signed URL and the
absolute path were obtained and `ioutil.Download` returned nil, leaving the
file system `d.fs`, on which no fault blocks the removal of the destination:
if `ValidateSHA256` returns an error, `os.Remove` is
called on the destination and then `log.Fatalf` reports that error, nothing
fatal having been reported before; the process exits with status 1 and the
destination file no longer exists.  If `ValidateSHA256` returns nil, the
process does not exit, nothing is removed and the file system is the one
`ioutil.Download` left, the destination holding the bytes it wrote. -/
theorem download_checksum_policy (env : Env) (flags : Flags)
    (client : Option (Nat → http.Client)) (fs : os.FS) (manifest : version.Manifest)
    (signedURL absPath : String) (d : ioutil.DownloadResult) (r : Outcome)
    (hget : version.Get env.Branch env.decoders (env.DefaultClient 0)
      (client.map (fun c => c 0)) flags.patchlineName = .ok manifest)
    (hurl : version.GetSignedURL env.Branch env.decoders (env.DefaultClient 1)
      (client.map (fun c => c 1)) flags.patchlineName = .ok signedURL)
    (habs : env.Abs (destination env.unicodeToLower flags manifest) = .ok absPath)
    (hd : d = ioutil.Download (env.DefaultClient 2) fs (client.map (fun c => c 2))
      signedURL absPath)
    (hok : d.err = none) (hrm : d.fs.undeletable absPath = none)
    (hr : r = download env flags client fs) :
    (∀ err, ioutil.ValidateSHA256 env.sha256 env.unicodeToLower d.fs absPath manifest.SHA256
        = some err →
      r.exit = some 1 ∧ r.fs.files absPath = none ∧
      (∀ p, p ≠ absPath → r.fs.files p = d.fs.files p) ∧
      ∃ before, r.trace = before ++ [Effect.remove absPath, Effect.fatalf "%v" err] ∧
        ∀ ef ∈ before, ∀ format e, ef ≠ Effect.fatalf format e) ∧
    (ioutil.ValidateSHA256 env.sha256 env.unicodeToLower d.fs absPath manifest.SHA256 = none →
      r.exit = none ∧ r.fs = d.fs ∧ ∀ p, Effect.remove p ∉ r.trace) := by
  subst hd
  subst hr
  constructor
  · intro err hv
    have hfs : (download env flags client fs).fs
        = (os.Remove (ioutil.Download (env.DefaultClient 2) fs (client.map (fun c => c 2))
            signedURL absPath).fs absPath).1 := by
      simp only [download, hget, hurl, habs, hok, hv]
    have htr : (download env flags client fs).trace
        = (Effect.printf "downloading latest (%q patchline) to %q\n"
              [flags.patchlineName, absPath]
            :: (ioutil.Download (env.DefaultClient 2) fs (client.map (fun c => c 2))
                signedURL absPath).out.map Effect.progress)
          ++ [Effect.println "validating checksum...", Effect.remove absPath,
              Effect.fatalf "%v" err] := by
      simp only [download, hget, hurl, habs, hok, hv]
    have hex : (download env flags client fs).exit = some 1 := by
      simp only [download, hget, hurl, habs, hok, hv]
    refine ⟨hex, ?_, ?_, ?_⟩
    · rw [hfs]
      simp only [os.Remove, hrm]
      split
      · assumption
      · simp
    · intro p hp
      rw [hfs]
      simp only [os.Remove, hrm]
      split
      · rfl
      · simp [hp]
    · refine ⟨(Effect.printf "downloading latest (%q patchline) to %q\n"
            [flags.patchlineName, absPath]
          :: (ioutil.Download (env.DefaultClient 2) fs (client.map (fun c => c 2))
              signedURL absPath).out.map Effect.progress)
          ++ [Effect.println "validating checksum..."], by rw [htr]; simp, ?_⟩
      intro ef hef format e
      simp only [List.cons_append, List.mem_cons, List.mem_append, List.mem_map,
        List.mem_singleton, List.not_mem_nil, or_false] at hef
      rcases hef with h | ⟨ev, _, h⟩ | h
      · rw [h]; exact Effect.noConfusion
      · rw [← h]; exact Effect.noConfusion
      · rw [h]; exact Effect.noConfusion
  · intro hv
    have hfs : (download env flags client fs).fs
        = (ioutil.Download (env.DefaultClient 2) fs (client.map (fun c => c 2))
            signedURL absPath).fs := by
      simp only [download, hget, hurl, habs, hok, hv]
    have htr : (download env flags client fs).trace
        = (Effect.printf "downloading latest (%q patchline) to %q\n"
              [flags.patchlineName, absPath]
            :: (ioutil.Download (env.DefaultClient 2) fs (client.map (fun c => c 2))
                signedURL absPath).out.map Effect.progress)
          ++ [Effect.println "validating checksum...",
              Effect.printf "successfully downloaded %q patchline (version %s)\n"
                [flags.patchlineName, manifest.Version]] := by
      simp only [download, hget, hurl, habs, hok, hv]
    have hex : (download env flags client fs).exit = none := by
      simp only [download, hget, hurl, habs, hok, hv]
    refine ⟨hex, hfs, ?_⟩
    intro p hmem
    rw [htr] at hmem
    simp only [List.cons_append, List.mem_cons, List.mem_append, List.mem_map,
      List.mem_singleton, List.not_mem_nil, or_false] at hmem
    rcases hmem with h | ⟨ev, _, h⟩ | h | h <;> exact Effect.noConfusion h

set_option maxRecDepth 100000 in
/-- C8 at a concrete run: the manifest names a digest the three bytes
downloaded do not have. -/
theorem download_checksum_policy_witness :
    (download (sampleEnv "ffffff") { downloadPath := "", patchlineName := "release" } none
      os.FS.empty).exit = some 1 ∧
    (download (sampleEnv "ffffff") { downloadPath := "", patchlineName := "release" } none
      os.FS.empty).fs.files "/home/user/hytale-release-1.2.3.zip" = none :=
  have h := (download_checksum_policy (sampleEnv "ffffff")
    { downloadPath := "", patchlineName := "release" } none os.FS.empty
    { Version := "1.2.3", SHA256 := "ffffff" } "https://cdn.example/file"
    "/home/user/hytale-release-1.2.3.zip"
    (ioutil.Download ioutil.threeByteServer os.FS.empty none "https://cdn.example/file"
      "/home/user/hytale-release-1.2.3.zip")
    (download (sampleEnv "ffffff") { downloadPath := "", patchlineName := "release" } none
      os.FS.empty)
    rfl rfl rfl rfl rfl rfl rfl).1
    (GoError.errorf "checksum mismatch: expected %s, got %s" ["ffffff", "010203"]) (by decide)
  ⟨h.1, h.2.1⟩

end main
